import Mathlib

/-!
# Two-class weighted fair queue (ns-3 `WeightedFairQueue`)

A shallow embedding of `src/weighted-fair-queuing/weighted-fair-queue.cc`.

* 32-bit unsigned quantities (`uint32_t`: packet sizes, byte counters, weights, limits) are
  natural numbers; every operation that can wrap is written with an explicit `% 2 ^ 32`.
* `double_t` quantities (virtual time, finish times).  Every value the program computes is
  obtained from `0.0` by adding 32-bit unsigned quotients, so it is a non-negative whole number;
  such a double is represented by its value in `Nat`, and `+` on doubles is IEEE-754 binary64
  addition with round-to-nearest-even (`dadd`).  Overflow to infinity (at `2 ^ 1024`) is not
  represented; `reachable_stored_bound` below shows the computed values stay below `2 ^ 85`.
  A wider representation (`Wide`), in which a double is any whole number of units of
  `2 ^ (-1074)`, covers negative and fractional doubles; `wide_reachable_embed` shows that it
  reaches only the states of the whole-number representation.
* `std::map<uint64_t, double_t>` is an association list kept sorted by key; `operator[]`
  inserts a `0.0` entry for an absent key (`mapIndex`).
* Integer division by zero is undefined behaviour in C++: the operations return `none` there.
-/

namespace WeightedFairQueue

/-! ## Machine arithmetic -/

/-- Modulus of `uint32_t`. -/
def U32 : Nat := 2 ^ 32

/-- Addition of two `uint32_t` values. -/
def add32 (a b : Nat) : Nat := (a + b) % U32

/-- Subtraction of two `uint32_t` values. -/
def sub32 (a b : Nat) : Nat := (a + (U32 - b % U32)) % U32

/-- Round a natural number to the nearest binary64 value (53-bit significand, ties to even). -/
def roundToDouble (n : Nat) : Nat :=
  if n < 2 ^ 53 then n
  else
    let e := Nat.log 2 n - 52
    let q := n / 2 ^ e
    let r := n % 2 ^ e
    if 2 * r < 2 ^ e then q * 2 ^ e
    else if 2 ^ e < 2 * r then (q + 1) * 2 ^ e
    else if q % 2 = 0 then q * 2 ^ e
    else (q + 1) * 2 ^ e

/-- Addition of a whole-number double and a whole number converted to double. -/
def dadd (a b : Nat) : Nat := roundToDouble (a + b)

/-- A natural number that is exactly a binary64 value. -/
def IsDouble (n : Nat) : Prop := n < 2 ^ 53 ∨ 2 ^ (Nat.log 2 n - 52) ∣ n

/-- The double denoted by the literal `1.7e+308` (lines 226 and 288): the binary64 value nearest
to `17 * 10 ^ 307`, which is `8517715530038134 * 2 ^ 971`, written out in decimal. -/
def minFinishTimeInit : Nat :=
  169999999999999993883079578865998174333346074304075874502773119193537729178160565864330091787584707988572262467983188919169916105593357174268369962062473635296474636515660464935663040684957844303524367815028553272712298986386310828644513212353921123253311675499856875650512437415429217994623324794855339589632

/-! ## The finish-time table (`std::map<uint64_t, double_t>`) -/

/-- The table `m_finishTimeCollection`, as a list of (uid, finish time) pairs. -/
abbrev FinishTimeMap := List (Nat × Nat)

/-- Lookup of a key (`std::map::find`). -/
def mapFind : FinishTimeMap → Nat → Option Nat
  | [], _ => none
  | (k, v) :: m, key => if key = k then some v else mapFind m key

/-- Assignment `m[key] = val`: replaces the entry of `key` or inserts it in key order. -/
def mapInsert : FinishTimeMap → Nat → Nat → FinishTimeMap
  | [], key, val => [(key, val)]
  | (k, v) :: m, key, val =>
    if key < k then (key, val) :: (k, v) :: m
    else if key = k then (key, val) :: m
    else (k, v) :: mapInsert m key val

/-- Removal of a key (`std::map::erase`). -/
def mapErase (m : FinishTimeMap) (key : Nat) : FinishTimeMap :=
  m.filter (fun kv => decide (kv.1 ≠ key))

/-- Read access `m[key]` (`std::map::operator[]`): the stored value, or `0.0` after inserting
a default entry when the key is absent.  Returns the value read and the table afterwards. -/
def mapIndex (m : FinishTimeMap) (key : Nat) : Nat × FinishTimeMap :=
  match mapFind m key with
  | some v => (v, m)
  | none => (0, mapInsert m key 0)

/-! ## Data model -/

/-- The queue mode (`WeightedFairQueue::QueueMode`). -/
inductive QueueMode where
  | QUEUE_MODE_PACKETS
  | QUEUE_MODE_BYTES
deriving DecidableEq, Repr

/-- What the scheduler reads of a packet: `GetUid ()`, `GetSize ()`, the protocol number of its
IPv4 header and the destination port of the transport header that follows it. -/
structure Packet where
  uid : Nat
  size : Nat
  protocol : Nat
  destinationPort : Nat
deriving DecidableEq, Repr

/-- The attributes of `GetTypeId` (lines 29-76), set before traffic flows. -/
structure Config where
  m_mode : QueueMode
  m_secondMaxPackets : Nat
  m_firstMaxPackets : Nat
  m_secondMaxBytes : Nat
  m_firstMaxBytes : Nat
  m_secondQueuePort : Nat
  m_firstWeight : Nat
  m_secondWeight : Nat
deriving DecidableEq, Repr

/-- The mutable members of the scheduler (constructor, lines 81-85).  A queue is the list of its
packets from front to back. -/
structure State where
  m_virtualTime : Nat
  m_firstWeightedQueue : List Packet
  m_bytesInFirstQueue : Nat
  m_secondWeightedQueue : List Packet
  m_bytesInSecondQueue : Nat
  m_finishTimeCollection : FinishTimeMap
deriving DecidableEq, Repr

/-- The state built by the constructor (lines 81-85). -/
def initialState : State :=
  { m_virtualTime := 0
    m_firstWeightedQueue := []
    m_bytesInFirstQueue := 0
    m_secondWeightedQueue := []
    m_bytesInSecondQueue := 0
    m_finishTimeCollection := [] }

/-! ## Operations -/

/-- `WeightedFairQueue::Classify` (lines 101-143).  The headers removed for the inspection are
added back, so the packet is unchanged and only the class is returned. -/
def Classify (c : Config) (p : Packet) : Nat :=
  if p.protocol = 17 then
    if p.destinationPort = c.m_secondQueuePort then 1 else 0
  else if p.protocol = 6 then
    if p.destinationPort = c.m_secondQueuePort then 1 else 0
  else 0

/-- `WeightedFairQueue::CalculateFinishTime` (lines 337-340): `packetSize / weight` is a division
of two `uint32_t`, converted to double and added to `previousFinishTime`. -/
def CalculateFinishTime (previousFinishTime packetSize weight : Nat) : Option Nat :=
  if weight = 0 then none else some (dadd previousFinishTime (packetSize / weight))

/-- `WeightedFairQueue::CalculateWeightSum` (lines 343-353), accumulated in a `uint32_t`. -/
def CalculateWeightSum (c : Config) (s : State) : Nat :=
  let weightSum := 0
  let weightSum := if s.m_firstWeightedQueue ≠ [] then add32 weightSum c.m_firstWeight else weightSum
  let weightSum := if s.m_secondWeightedQueue ≠ [] then add32 weightSum c.m_secondWeight else weightSum
  weightSum

/-- The local `previousFinishTime` of `DoEnqueue` for the chosen queue (lines 169-172 and
203-206): the virtual time when the queue is empty, otherwise the table read at the id of the
packet at the back.  Returns the value and the table after the read. -/
def previousFinishTime (s : State) (queue : List Packet) : Nat × FinishTimeMap :=
  match queue.getLast? with
  | none => (s.m_virtualTime, s.m_finishTimeCollection)
  | some back => mapIndex s.m_finishTimeCollection back.uid

/-- `WeightedFairQueue::DoEnqueue` (lines 145-223).  The result is `none` when the call divides by
zero, otherwise the returned boolean and the state after the call. -/
def DoEnqueue (c : Config) (s : State) (p : Packet) : Option (Bool × State) :=
  let weightedQueue := Classify c p
  if weightedQueue = 1 then
    if c.m_mode = QueueMode.QUEUE_MODE_PACKETS ∧ s.m_secondWeightedQueue.length ≥ c.m_secondMaxPackets then
      some (false, s)
    else if c.m_mode = QueueMode.QUEUE_MODE_BYTES ∧ add32 s.m_bytesInSecondQueue p.size ≥ c.m_secondMaxBytes then
      some (false, s)
    else
      let prev := previousFinishTime s s.m_secondWeightedQueue
      match CalculateFinishTime prev.1 p.size c.m_secondWeight with
      | none => none
      | some currentFinishTime =>
        some (true,
          { s with
            m_finishTimeCollection := mapInsert prev.2 p.uid currentFinishTime
            m_bytesInSecondQueue := add32 s.m_bytesInSecondQueue p.size
            m_secondWeightedQueue := s.m_secondWeightedQueue ++ [p] })
  else if weightedQueue = 0 then
    if c.m_mode = QueueMode.QUEUE_MODE_PACKETS ∧ s.m_firstWeightedQueue.length ≥ c.m_firstMaxPackets then
      some (false, s)
    else if c.m_mode = QueueMode.QUEUE_MODE_BYTES ∧ add32 s.m_bytesInFirstQueue p.size ≥ c.m_firstMaxBytes then
      some (false, s)
    else
      let prev := previousFinishTime s s.m_firstWeightedQueue
      match CalculateFinishTime prev.1 p.size c.m_firstWeight with
      | none => none
      | some currentFinishTime =>
        some (true,
          { s with
            m_finishTimeCollection := mapInsert prev.2 p.uid currentFinishTime
            m_bytesInFirstQueue := add32 s.m_bytesInFirstQueue p.size
            m_firstWeightedQueue := s.m_firstWeightedQueue ++ [p] })
  else
    some (false, s)

/-- The locals `minFinishTime`, `minQueue` of `DoDequeue` together with the table, after the
block on the first queue (lines 231-238). -/
def dequeueFirstBlock (s : State) : Nat × Int × FinishTimeMap :=
  match s.m_firstWeightedQueue with
  | [] => (minFinishTimeInit, -1, s.m_finishTimeCollection)
  | p1 :: _ =>
    let firstFinishTime := mapIndex s.m_finishTimeCollection p1.uid
    if firstFinishTime.1 ≤ minFinishTimeInit then (firstFinishTime.1, 0, firstFinishTime.2)
    else (minFinishTimeInit, -1, firstFinishTime.2)

/-- The same locals after the block on the second queue (lines 240-247). -/
def dequeueSecondBlock (s : State) : Nat × Int × FinishTimeMap :=
  let b := dequeueFirstBlock s
  match s.m_secondWeightedQueue with
  | [] => b
  | p2 :: _ =>
    let secondFinishTime := mapIndex b.2.2 p2.uid
    if secondFinishTime.1 ≤ b.1 then (secondFinishTime.1, 1, secondFinishTime.2)
    else (b.1, b.2.1, secondFinishTime.2)

/-- `WeightedFairQueue::DoDequeue` (lines 225-285).  The result is `none` when the call divides by
zero, otherwise the returned packet (`none` for the null pointer) and the state after the call. -/
def DoDequeue (c : Config) (s : State) : Option (Option Packet × State) :=
  let b := dequeueSecondBlock s
  if b.2.1 = 0 then
    match s.m_firstWeightedQueue with
    | [] => none
    | p1 :: rest =>
      if CalculateWeightSum c s = 0 then none
      else
        some (some p1,
          { s with
            m_virtualTime := dadd s.m_virtualTime (p1.size / CalculateWeightSum c s)
            m_firstWeightedQueue := rest
            m_bytesInFirstQueue := sub32 s.m_bytesInFirstQueue p1.size
            m_finishTimeCollection := mapErase b.2.2 p1.uid })
  else if b.2.1 = 1 then
    match s.m_secondWeightedQueue with
    | [] => none
    | p2 :: rest =>
      if CalculateWeightSum c s = 0 then none
      else
        some (some p2,
          { s with
            m_virtualTime := dadd s.m_virtualTime (p2.size / CalculateWeightSum c s)
            m_secondWeightedQueue := rest
            m_bytesInSecondQueue := sub32 s.m_bytesInSecondQueue p2.size
            m_finishTimeCollection := mapErase b.2.2 p2.uid })
  else
    some (none, { s with m_finishTimeCollection := b.2.2 })

/-- The locals `minFinishTime`, `minQueue` of `DoPeek` after the block on the first queue
(lines 293-300); the table is read through the copy returned by `getFinishTimeCollection`. -/
def peekFirstBlock (s : State) : Nat × Int :=
  match s.m_firstWeightedQueue with
  | [] => (minFinishTimeInit, -1)
  | p1 :: _ =>
    let firstFinishTime := (mapIndex s.m_finishTimeCollection p1.uid).1
    if firstFinishTime ≤ minFinishTimeInit then (firstFinishTime, 0) else (minFinishTimeInit, -1)

/-- The same locals after the block on the second queue (lines 302-309). -/
def peekSecondBlock (s : State) : Nat × Int :=
  let b := peekFirstBlock s
  match s.m_secondWeightedQueue with
  | [] => b
  | p2 :: _ =>
    let secondFinishTime := (mapIndex s.m_finishTimeCollection p2.uid).1
    if secondFinishTime ≤ b.1 then (secondFinishTime, 1) else b

/-- `WeightedFairQueue::DoPeek` (lines 287-329), a `const` member function: the returned packet
(`none` for the null pointer) and the state after the call, in which no member was assigned. -/
def DoPeek (_c : Config) (s : State) : Option Packet × State :=
  let b := peekSecondBlock s
  if b.2 = 0 then (s.m_firstWeightedQueue.head?, s)
  else if b.2 = 1 then (s.m_secondWeightedQueue.head?, s)
  else (none, s)

/-! ## Observations and executions -/

/-- The finish time stored for a packet id, as a read `m_finishTimeCollection[uid]` returns it. -/
def storedFinishTime (s : State) (uid : Nat) : Nat :=
  (mapIndex s.m_finishTimeCollection uid).1

/-- The packets of the buffer of a class (0: first queue, otherwise second queue). -/
def classQueue (s : State) (cls : Nat) : List Packet :=
  if cls = 0 then s.m_firstWeightedQueue else s.m_secondWeightedQueue

/-- The byte counter of a class. -/
def classBytes (s : State) (cls : Nat) : Nat :=
  if cls = 0 then s.m_bytesInFirstQueue else s.m_bytesInSecondQueue

/-- The packet limit of a class. -/
def classMaxPackets (c : Config) (cls : Nat) : Nat :=
  if cls = 0 then c.m_firstMaxPackets else c.m_secondMaxPackets

/-- The byte limit of a class. -/
def classMaxBytes (c : Config) (cls : Nat) : Nat :=
  if cls = 0 then c.m_firstMaxBytes else c.m_secondMaxBytes

/-- The weight of a class. -/
def classWeight (c : Config) (cls : Nat) : Nat :=
  if cls = 0 then c.m_firstWeight else c.m_secondWeight

/-- The ids of the packets resident in either buffer. -/
def residentUids (s : State) : List Nat :=
  (s.m_firstWeightedQueue ++ s.m_secondWeightedQueue).map Packet.uid

/-- States reached from the constructed scheduler by calls of `DoEnqueue`, `DoDequeue` and
`DoPeek` that return, where every enqueued packet has a 32-bit size and satisfies the side
condition `adm` in the state it is offered to. -/
inductive ReachableWith (c : Config) (adm : State → Packet → Prop) : State → Prop where
  | init : ReachableWith c adm initialState
  | enqueue {s s2 : State} {p : Packet} {r : Bool} :
      ReachableWith c adm s → p.size < U32 → adm s p →
      DoEnqueue c s p = some (r, s2) → ReachableWith c adm s2
  | dequeue {s s2 : State} {r : Option Packet} :
      ReachableWith c adm s → DoDequeue c s = some (r, s2) → ReachableWith c adm s2
  | peek {s : State} : ReachableWith c adm s → ReachableWith c adm (DoPeek c s).2

/-- States reachable by any calls. -/
def Reachable (c : Config) : State → Prop :=
  ReachableWith c (fun _ _ => True)

/-- States reachable when every enqueued packet has an id distinct from the resident ones. -/
def ReachableDistinct (c : Config) : State → Prop :=
  ReachableWith c (fun s p => p.uid ∉ residentUids s)

/-- States reachable when no admission check overflows 32 bits: the byte counter of the class of
the offered packet plus the size of the packet stays below `2 ^ 32`. -/
def ReachableNoWrap (c : Config) : State → Prop :=
  ReachableWith c (fun s p => classBytes s (Classify c p) + p.size < U32)

/-- The rejection condition of the admission rule, with the byte sum taken in 32-bit unsigned
arithmetic as `DoEnqueue` computes it. -/
def admissionRejects (c : Config) (s : State) (p : Packet) : Prop :=
  (c.m_mode = QueueMode.QUEUE_MODE_PACKETS ∧
    (classQueue s (Classify c p)).length ≥ classMaxPackets c (Classify c p)) ∨
  (c.m_mode = QueueMode.QUEUE_MODE_BYTES ∧
    (classBytes s (Classify c p) + p.size) % 2 ^ 32 ≥ classMaxBytes c (Classify c p))

/-- The rejection condition of the admission rule with the byte sum taken as a sum of natural
numbers, without wrap-around. -/
def admissionRejectsExact (c : Config) (s : State) (p : Packet) : Prop :=
  (c.m_mode = QueueMode.QUEUE_MODE_PACKETS ∧
    (classQueue s (Classify c p)).length ≥ classMaxPackets c (Classify c p)) ∨
  (c.m_mode = QueueMode.QUEUE_MODE_BYTES ∧
    classBytes s (Classify c p) + p.size ≥ classMaxBytes c (Classify c p))

/-- The finish time a table holds for an id, `0` when it has no entry. -/
def ftOf (m : FinishTimeMap) (uid : Nat) : Nat := (mapFind m uid).getD 0

/-- Every value stored in a table satisfies `P`. -/
def TableAll (P : Nat → Prop) (m : FinishTimeMap) : Prop :=
  ∀ k v, mapFind m k = some v → P v

/-- The buffer `q` is ordered by the finish times the table `m` holds: every packet has a finish
time at most that of every packet behind it. -/
def FinishTimeSorted (m : FinishTimeMap) (q : List Packet) : Prop :=
  q.Pairwise (fun a b => ftOf m a.uid ≤ ftOf m b.uid)

/-- The invariant of the executions in which resident ids are pairwise distinct: the ids are
distinct, every resident packet has an entry in the table, the virtual time and the stored
finish times are doubles, and each buffer is ordered by stored finish time. -/
def DistinctInv (s : State) : Prop :=
  (residentUids s).Nodup ∧
  (∀ p ∈ s.m_firstWeightedQueue ++ s.m_secondWeightedQueue,
    ∃ v, mapFind s.m_finishTimeCollection p.uid = some v) ∧
  IsDouble s.m_virtualTime ∧
  TableAll IsDouble s.m_finishTimeCollection ∧
  FinishTimeSorted s.m_finishTimeCollection s.m_firstWeightedQueue ∧
  FinishTimeSorted s.m_finishTimeCollection s.m_secondWeightedQueue

instance (c : Config) (s : State) (p : Packet) : Decidable (admissionRejects c s p) := by
  unfold admissionRejects; infer_instance

instance (c : Config) (s : State) (p : Packet) : Decidable (admissionRejectsExact c s p) := by
  unfold admissionRejectsExact; infer_instance

/-! ## Concrete configurations, packets and states used in the examples -/

/-- Packet-count mode, two packets per class, port 3000, weights 1 and 1 (the configuration of
the example scenarios of the specification). -/
def unitConfig : Config :=
  { m_mode := QueueMode.QUEUE_MODE_PACKETS
    m_secondMaxPackets := 2
    m_firstMaxPackets := 2
    m_secondMaxBytes := 6553500
    m_firstMaxBytes := 6553500
    m_secondQueuePort := 3000
    m_firstWeight := 1
    m_secondWeight := 1 }

/-- A UDP packet of 100 bytes to port 80 (class 0). -/
def packetA : Packet := { uid := 1, size := 100, protocol := 17, destinationPort := 80 }

/-- A UDP packet of 100 bytes to port 3000 (class 1). -/
def packetB : Packet := { uid := 2, size := 100, protocol := 17, destinationPort := 3000 }

/-- A UDP packet of 300 bytes to port 3000 (class 1). -/
def packetC : Packet := { uid := 3, size := 300, protocol := 17, destinationPort := 3000 }

/-- The state after `packetA` and `packetB` were enqueued under `unitConfig`: both heads have
the finish time 100. -/
def tieState : State :=
  { m_virtualTime := 0
    m_firstWeightedQueue := [packetA]
    m_bytesInFirstQueue := 100
    m_secondWeightedQueue := [packetB]
    m_bytesInSecondQueue := 100
    m_finishTimeCollection := [(1, 100), (2, 100)] }

/-- As `unitConfig`, with weights 3 and 2. -/
def weightedConfig : Config :=
  { unitConfig with m_firstWeight := 3, m_secondWeight := 2 }

/-- The state after `packetA` was enqueued under `weightedConfig`. -/
def truncatedState : State :=
  { m_virtualTime := 0
    m_firstWeightedQueue := [packetA]
    m_bytesInFirstQueue := 100
    m_secondWeightedQueue := []
    m_bytesInSecondQueue := 0
    m_finishTimeCollection := [(1, 33)] }

/-- As `unitConfig`, with weights 1 and 2. -/
def mixedConfig : Config :=
  { unitConfig with m_firstWeight := 1, m_secondWeight := 2 }

/-- The state after `packetA` and `packetC` were enqueued under `mixedConfig`. -/
def mixedState : State :=
  { m_virtualTime := 0
    m_firstWeightedQueue := [packetA]
    m_bytesInFirstQueue := 100
    m_secondWeightedQueue := [packetC]
    m_bytesInSecondQueue := 300
    m_finishTimeCollection := [(1, 100), (3, 150)] }

/-- The state after `DoDequeue` on `mixedState`. -/
def mixedStateAfter : State :=
  { m_virtualTime := 33
    m_firstWeightedQueue := []
    m_bytesInFirstQueue := 0
    m_secondWeightedQueue := [packetC]
    m_bytesInSecondQueue := 300
    m_finishTimeCollection := [(3, 150)] }

/-- Byte-count mode with a limit of 100 bytes per class, weights 1 and 1. -/
def byteConfig : Config :=
  { unitConfig with
    m_mode := QueueMode.QUEUE_MODE_BYTES, m_firstMaxBytes := 100, m_secondMaxBytes := 100 }

/-- A UDP packet of 10 bytes to port 80 (class 0). -/
def smallPacket : Packet := { uid := 1, size := 10, protocol := 17, destinationPort := 80 }

/-- A UDP packet of `2 ^ 32 - 5` bytes to port 80 (class 0). -/
def hugePacket : Packet := { uid := 2, size := 4294967291, protocol := 17, destinationPort := 80 }

/-- The state after `smallPacket` was enqueued under `byteConfig`. -/
def smallState : State :=
  { m_virtualTime := 0
    m_firstWeightedQueue := [smallPacket]
    m_bytesInFirstQueue := 10
    m_secondWeightedQueue := []
    m_bytesInSecondQueue := 0
    m_finishTimeCollection := [(1, 10)] }

/-- The state after `hugePacket` was enqueued on `smallState`: the byte counter wrapped to 5. -/
def wrappedState : State :=
  { m_virtualTime := 0
    m_firstWeightedQueue := [smallPacket, hugePacket]
    m_bytesInFirstQueue := 5
    m_secondWeightedQueue := []
    m_bytesInSecondQueue := 0
    m_finishTimeCollection := [(1, 10), (2, 4294967301)] }

/-- The state after `DoDequeue` on `wrappedState`: the byte counter is `2 ^ 32 - 5`. -/
def wrappedStateAfter : State :=
  { m_virtualTime := 10
    m_firstWeightedQueue := [hugePacket]
    m_bytesInFirstQueue := 4294967291
    m_secondWeightedQueue := []
    m_bytesInSecondQueue := 0
    m_finishTimeCollection := [(2, 4294967301)] }

/-- Byte-count mode with a limit of 0 bytes for the first class. -/
def zeroLimitConfig : Config :=
  { byteConfig with m_firstMaxBytes := 0 }

/-- As `unitConfig`, with both weights `2 ^ 31`: their 32-bit sum is 0. -/
def halfConfig : Config :=
  { unitConfig with m_firstWeight := 2147483648, m_secondWeight := 2147483648 }

/-- The state after `packetA` and `packetB` were enqueued under `halfConfig`. -/
def halfState : State :=
  { m_virtualTime := 0
    m_firstWeightedQueue := [packetA]
    m_bytesInFirstQueue := 100
    m_secondWeightedQueue := [packetB]
    m_bytesInSecondQueue := 100
    m_finishTimeCollection := [(1, 0), (2, 0)] }

/-- The state after `packetA` was enqueued under `unitConfig`. -/
def stateA : State :=
  { m_virtualTime := 0
    m_firstWeightedQueue := [packetA]
    m_bytesInFirstQueue := 100
    m_secondWeightedQueue := []
    m_bytesInSecondQueue := 0
    m_finishTimeCollection := [(1, 100)] }

/-- A second UDP packet of 100 bytes to port 80 (class 0). -/
def packetD : Packet := { uid := 4, size := 100, protocol := 17, destinationPort := 80 }

/-- A third UDP packet of 100 bytes to port 80 (class 0). -/
def packetE : Packet := { uid := 5, size := 100, protocol := 17, destinationPort := 80 }

/-- The state after `packetA` and `packetD` were enqueued under `unitConfig`: the first queue
holds its maximum of two packets. -/
def fullState : State :=
  { m_virtualTime := 0
    m_firstWeightedQueue := [packetA, packetD]
    m_bytesInFirstQueue := 200
    m_secondWeightedQueue := []
    m_bytesInSecondQueue := 0
    m_finishTimeCollection := [(1, 100), (4, 200)] }

/-- A state in which both heads have the stored finish time `31 * 2 ^ 1019`, a double above the
initial `minFinishTime` (about `1.74e308`). -/
def aboveInitState : State :=
  { m_virtualTime := 0
    m_firstWeightedQueue := [packetA]
    m_bytesInFirstQueue := 100
    m_secondWeightedQueue := [packetB]
    m_bytesInSecondQueue := 100
    m_finishTimeCollection :=
      [(1, 174151522439786853561276440357686771069241519835035949233635391121553529686579058034811337406082300520460110321125412315231952588538966103039945948431990557990962646755338438861417775238707153678220174109832349338561958473519260916427853325836426386001995807225692976419948894502902225170309251444323467132928),
       (2, 174151522439786853561276440357686771069241519835035949233635391121553529686579058034811337406082300520460110321125412315231952588538966103039945948431990557990962646755338438861417775238707153678220174109832349338561958473519260916427853325836426386001995807225692976419948894502902225170309251444323467132928)] }

/-- As `unitConfig`, with a first weight of 0. -/
def zeroWeightConfig : Config :=
  { unitConfig with m_firstWeight := 0 }

/-! ## Runs, histories and further example data -/

/-- The ids that have an entry in a table. -/
def mapKeys (m : FinishTimeMap) : List Nat := m.map Prod.fst

/-- One call of `DoEnqueue` (with a packet of 32-bit size), `DoDequeue` or `DoPeek` that
returns, leading from a state to the next. -/
inductive Step (c : Config) : State → State → Prop where
  | enqueue {s s2 : State} {p : Packet} {r : Bool} :
      p.size < U32 → DoEnqueue c s p = some (r, s2) → Step c s s2
  | dequeue {s s2 : State} {r : Option Packet} :
      DoDequeue c s = some (r, s2) → Step c s s2
  | peek (s : State) : Step c s (DoPeek c s).2

/-- Runs from a state in which no packet with the id `uid` is enqueued. -/
inductive RunWithout (c : Config) (uid : Nat) : State → State → Prop where
  | refl (s : State) : RunWithout c uid s s
  | enqueue {s t t2 : State} {p : Packet} {r : Bool} :
      RunWithout c uid s t → p.uid ≠ uid → DoEnqueue c t p = some (r, t2) →
      RunWithout c uid s t2
  | dequeue {s t t2 : State} {r : Option Packet} :
      RunWithout c uid s t → DoDequeue c t = some (r, t2) → RunWithout c uid s t2
  | peek {s t : State} : RunWithout c uid s t → RunWithout c uid s (DoPeek c t).2

/-- The record of an execution: for each class the packets admitted by `DoEnqueue`, in the order
of admission, and the packets returned by `DoDequeue`, in the order of the calls. -/
structure History where
  admittedFirst : List Packet
  admittedSecond : List Packet
  returnedFirst : List Packet
  returnedSecond : List Packet
deriving DecidableEq, Repr

/-- The record before any call. -/
def emptyHistory : History :=
  { admittedFirst := [], admittedSecond := [], returnedFirst := [], returnedSecond := [] }

/-- The record after a call of `DoEnqueue` on packet `p` that returned `r`: an admitted packet
is appended to the admissions of its class. -/
def recordEnqueue (c : Config) (p : Packet) (r : Bool) (h : History) : History :=
  if r = true then
    if Classify c p = 0 then { h with admittedFirst := h.admittedFirst ++ [p] }
    else { h with admittedSecond := h.admittedSecond ++ [p] }
  else h

/-- The record after a call of `DoDequeue` in state `s` that returned `r`: a returned packet is
appended to the returns of the class `minQueue` it was taken from. -/
def recordDequeue (s : State) (r : Option Packet) (h : History) : History :=
  match r with
  | none => h
  | some p =>
    if (dequeueSecondBlock s).2.1 = 0 then { h with returnedFirst := h.returnedFirst ++ [p] }
    else { h with returnedSecond := h.returnedSecond ++ [p] }

/-- Executions from the constructed scheduler together with their record. -/
inductive Execution (c : Config) : State → History → Prop where
  | init : Execution c initialState emptyHistory
  | enqueue {s s2 : State} {h : History} {p : Packet} {r : Bool} :
      Execution c s h → DoEnqueue c s p = some (r, s2) →
      Execution c s2 (recordEnqueue c p r h)
  | dequeue {s s2 : State} {h : History} {r : Option Packet} :
      Execution c s h → DoDequeue c s = some (r, s2) →
      Execution c s2 (recordDequeue s r h)
  | peek {s : State} {h : History} : Execution c s h → Execution c (DoPeek c s).2 h

/-- A UDP packet of `2 ^ 31` bytes to port 80 (class 0). -/
def halfPacketA : Packet := { uid := 6, size := 2147483648, protocol := 17, destinationPort := 80 }

/-- A second UDP packet of `2 ^ 31` bytes to port 80 (class 0). -/
def halfPacketB : Packet := { uid := 7, size := 2147483648, protocol := 17, destinationPort := 80 }

/-- The state after `halfPacketA` was enqueued under `unitConfig`. -/
def halfBytesState : State :=
  { m_virtualTime := 0
    m_firstWeightedQueue := [halfPacketA]
    m_bytesInFirstQueue := 2147483648
    m_secondWeightedQueue := []
    m_bytesInSecondQueue := 0
    m_finishTimeCollection := [(6, 2147483648)] }

/-- The state after `halfPacketA` and `halfPacketB` were enqueued under `unitConfig`: the byte
counter of the first queue wrapped to 0. -/
def zeroBytesState : State :=
  { m_virtualTime := 0
    m_firstWeightedQueue := [halfPacketA, halfPacketB]
    m_bytesInFirstQueue := 0
    m_secondWeightedQueue := []
    m_bytesInSecondQueue := 0
    m_finishTimeCollection := [(6, 2147483648), (7, 4294967296)] }

/-- As `unitConfig`, with weights `2 ^ 32 - 1` and 2: their 32-bit sum is 1. -/
def overflowConfig : Config :=
  { unitConfig with m_firstWeight := 4294967295, m_secondWeight := 2 }

/-- The state after `packetA` and `packetB` were enqueued under `overflowConfig`. -/
def overflowState : State :=
  { m_virtualTime := 0
    m_firstWeightedQueue := [packetA]
    m_bytesInFirstQueue := 100
    m_secondWeightedQueue := [packetB]
    m_bytesInSecondQueue := 100
    m_finishTimeCollection := [(1, 0), (2, 50)] }

/-- The state after `DoDequeue` on `fullState` under `unitConfig`, which returns `packetA`. -/
def halfDrainedState : State :=
  { m_virtualTime := 100
    m_firstWeightedQueue := [packetD]
    m_bytesInFirstQueue := 100
    m_secondWeightedQueue := []
    m_bytesInSecondQueue := 0
    m_finishTimeCollection := [(4, 200)] }

/-- The state after a second `DoDequeue`, which returns `packetD`. -/
def drainedState : State :=
  { m_virtualTime := 200
    m_firstWeightedQueue := []
    m_bytesInFirstQueue := 0
    m_secondWeightedQueue := []
    m_bytesInSecondQueue := 0
    m_finishTimeCollection := [] }

/-- The record of the execution that enqueues `packetA` and `packetD` under `unitConfig` and
then calls `DoDequeue` twice. -/
def drainedHistory : History :=
  { admittedFirst := [packetA, packetD], admittedSecond := []
    returnedFirst := [packetA, packetD], returnedSecond := [] }

/-! ## A wider model of `double_t`: all finite doubles

Every finite double is a whole multiple of `2 ^ (-1074)`, the smallest positive double.  Here a
finite double is the integer number of these units it amounts to, so that negative and
fractional doubles are included; the sum of two doubles is a whole number of units, and it is
rounded to the nearest double as in `roundToDouble`, the sign apart.  The operations of the
scheduler are repeated over this representation.
-/

namespace Wide

/-- The double `1.0` in units of `2 ^ (-1074)`: the number `2 ^ 1074`, written out in decimal. -/
def one : Int :=
  202402253307310618352495346718917307049556649764142118356901358027430339567995346891960383701437124495187077864316811911389808737385793476867013399940738509921517424276566361364466907742093216341239767678472745068562007483424692698618103355649159556340810056512358769552333414615230502532186327508646006263307707741093494784

/-- The largest finite double in units of `2 ^ (-1074)`: `(2 ^ 53 - 1) * 2 ^ 2045`, written out
in decimal. -/
def maxFinite : Nat :=
  36385714125121573300846800698456749842842774431060269030973563199251835202763131874220510446199752578146168959525535975504123660741259730559491535919078220069839241298744801305292878640835527930863994674357611588999020693594474762898847930291552594690170203187215045688094955660773922576137969830342611860225019935582199601121469249223149872466121371567155862303084330314602566069416432551333006194774477514260351201969859368060220131234488198148976536169638305696900504838830719760875514246216508976803882728582677352177004129288847854463084006372981390756344519549931097743963603971632334891836831978686870043355177324550146752512

/-- Conversion of a `uint32_t` value to double. -/
def ofNat (n : Nat) : Int := (n : Int) * one

/-- Round a number of units to the nearest double (ties to even). -/
def roundNearest (z : Int) : Int := z.sign * (roundToDouble z.natAbs : Int)

/-- Addition of a double and a `uint32_t` value converted to double. -/
def dadd (a : Int) (b : Nat) : Int := roundNearest (a + ofNat b)

/-- The double denoted by the literal `1.7e+308` (lines 226 and 288). -/
def minFinishTimeInit : Int := ofNat WeightedFairQueue.minFinishTimeInit

/-- The table `m_finishTimeCollection`, as a list of (uid, finish time) pairs. -/
abbrev FinishTimeMap := List (Nat × Int)

/-- Lookup of a key (`std::map::find`). -/
def mapFind : FinishTimeMap → Nat → Option Int
  | [], _ => none
  | (k, v) :: m, key => if key = k then some v else mapFind m key

/-- Assignment `m[key] = val`: replaces the entry of `key` or inserts it in key order. -/
def mapInsert : FinishTimeMap → Nat → Int → FinishTimeMap
  | [], key, val => [(key, val)]
  | (k, v) :: m, key, val =>
    if key < k then (key, val) :: (k, v) :: m
    else if key = k then (key, val) :: m
    else (k, v) :: mapInsert m key val

/-- Removal of a key (`std::map::erase`). -/
def mapErase (m : FinishTimeMap) (key : Nat) : FinishTimeMap :=
  m.filter (fun kv => decide (kv.1 ≠ key))

/-- Read access `m[key]` (`std::map::operator[]`): the stored value, or `0.0` after inserting
a default entry when the key is absent.  Returns the value read and the table afterwards. -/
def mapIndex (m : FinishTimeMap) (key : Nat) : Int × FinishTimeMap :=
  match mapFind m key with
  | some v => (v, m)
  | none => (0, mapInsert m key 0)

/-- The mutable members of the scheduler (constructor, lines 81-85). -/
structure State where
  m_virtualTime : Int
  m_firstWeightedQueue : List Packet
  m_bytesInFirstQueue : Nat
  m_secondWeightedQueue : List Packet
  m_bytesInSecondQueue : Nat
  m_finishTimeCollection : FinishTimeMap
deriving DecidableEq, Repr

/-- The state built by the constructor (lines 81-85). -/
def initialState : State :=
  { m_virtualTime := 0
    m_firstWeightedQueue := []
    m_bytesInFirstQueue := 0
    m_secondWeightedQueue := []
    m_bytesInSecondQueue := 0
    m_finishTimeCollection := [] }

/-- `WeightedFairQueue::CalculateFinishTime` (lines 337-340): `packetSize / weight` is a division
of two `uint32_t`, converted to double and added to `previousFinishTime`. -/
def CalculateFinishTime (previousFinishTime : Int) (packetSize weight : Nat) : Option Int :=
  if weight = 0 then none else some (dadd previousFinishTime (packetSize / weight))

/-- `WeightedFairQueue::CalculateWeightSum` (lines 343-353), accumulated in a `uint32_t`. -/
def CalculateWeightSum (c : Config) (s : State) : Nat :=
  let weightSum := 0
  let weightSum := if s.m_firstWeightedQueue ≠ [] then add32 weightSum c.m_firstWeight else weightSum
  let weightSum := if s.m_secondWeightedQueue ≠ [] then add32 weightSum c.m_secondWeight else weightSum
  weightSum

/-- The local `previousFinishTime` of `DoEnqueue` for the chosen queue (lines 169-172 and
203-206). -/
def previousFinishTime (s : State) (queue : List Packet) : Int × FinishTimeMap :=
  match queue.getLast? with
  | none => (s.m_virtualTime, s.m_finishTimeCollection)
  | some back => mapIndex s.m_finishTimeCollection back.uid

/-- `WeightedFairQueue::DoEnqueue` (lines 145-223).  The result is `none` when the call divides by
zero, otherwise the returned boolean and the state after the call. -/
def DoEnqueue (c : Config) (s : State) (p : Packet) : Option (Bool × State) :=
  let weightedQueue := Classify c p
  if weightedQueue = 1 then
    if c.m_mode = QueueMode.QUEUE_MODE_PACKETS ∧ s.m_secondWeightedQueue.length ≥ c.m_secondMaxPackets then
      some (false, s)
    else if c.m_mode = QueueMode.QUEUE_MODE_BYTES ∧ add32 s.m_bytesInSecondQueue p.size ≥ c.m_secondMaxBytes then
      some (false, s)
    else
      let prev := previousFinishTime s s.m_secondWeightedQueue
      match CalculateFinishTime prev.1 p.size c.m_secondWeight with
      | none => none
      | some currentFinishTime =>
        some (true,
          { s with
            m_finishTimeCollection := mapInsert prev.2 p.uid currentFinishTime
            m_bytesInSecondQueue := add32 s.m_bytesInSecondQueue p.size
            m_secondWeightedQueue := s.m_secondWeightedQueue ++ [p] })
  else if weightedQueue = 0 then
    if c.m_mode = QueueMode.QUEUE_MODE_PACKETS ∧ s.m_firstWeightedQueue.length ≥ c.m_firstMaxPackets then
      some (false, s)
    else if c.m_mode = QueueMode.QUEUE_MODE_BYTES ∧ add32 s.m_bytesInFirstQueue p.size ≥ c.m_firstMaxBytes then
      some (false, s)
    else
      let prev := previousFinishTime s s.m_firstWeightedQueue
      match CalculateFinishTime prev.1 p.size c.m_firstWeight with
      | none => none
      | some currentFinishTime =>
        some (true,
          { s with
            m_finishTimeCollection := mapInsert prev.2 p.uid currentFinishTime
            m_bytesInFirstQueue := add32 s.m_bytesInFirstQueue p.size
            m_firstWeightedQueue := s.m_firstWeightedQueue ++ [p] })
  else
    some (false, s)

/-- The locals `minFinishTime`, `minQueue` of `DoDequeue` together with the table, after the
block on the first queue (lines 231-238). -/
def dequeueFirstBlock (s : State) : Int × Int × FinishTimeMap :=
  match s.m_firstWeightedQueue with
  | [] => (minFinishTimeInit, -1, s.m_finishTimeCollection)
  | p1 :: _ =>
    let firstFinishTime := mapIndex s.m_finishTimeCollection p1.uid
    if firstFinishTime.1 ≤ minFinishTimeInit then (firstFinishTime.1, 0, firstFinishTime.2)
    else (minFinishTimeInit, -1, firstFinishTime.2)

/-- The same locals after the block on the second queue (lines 240-247). -/
def dequeueSecondBlock (s : State) : Int × Int × FinishTimeMap :=
  let b := dequeueFirstBlock s
  match s.m_secondWeightedQueue with
  | [] => b
  | p2 :: _ =>
    let secondFinishTime := mapIndex b.2.2 p2.uid
    if secondFinishTime.1 ≤ b.1 then (secondFinishTime.1, 1, secondFinishTime.2)
    else (b.1, b.2.1, secondFinishTime.2)

/-- `WeightedFairQueue::DoDequeue` (lines 225-285).  The result is `none` when the call divides by
zero, otherwise the returned packet (`none` for the null pointer) and the state after the call. -/
def DoDequeue (c : Config) (s : State) : Option (Option Packet × State) :=
  let b := dequeueSecondBlock s
  if b.2.1 = 0 then
    match s.m_firstWeightedQueue with
    | [] => none
    | p1 :: rest =>
      if CalculateWeightSum c s = 0 then none
      else
        some (some p1,
          { s with
            m_virtualTime := dadd s.m_virtualTime (p1.size / CalculateWeightSum c s)
            m_firstWeightedQueue := rest
            m_bytesInFirstQueue := sub32 s.m_bytesInFirstQueue p1.size
            m_finishTimeCollection := mapErase b.2.2 p1.uid })
  else if b.2.1 = 1 then
    match s.m_secondWeightedQueue with
    | [] => none
    | p2 :: rest =>
      if CalculateWeightSum c s = 0 then none
      else
        some (some p2,
          { s with
            m_virtualTime := dadd s.m_virtualTime (p2.size / CalculateWeightSum c s)
            m_secondWeightedQueue := rest
            m_bytesInSecondQueue := sub32 s.m_bytesInSecondQueue p2.size
            m_finishTimeCollection := mapErase b.2.2 p2.uid })
  else
    some (none, { s with m_finishTimeCollection := b.2.2 })

/-- The locals `minFinishTime`, `minQueue` of `DoPeek` after the block on the first queue
(lines 293-300); the table is read through the copy returned by `getFinishTimeCollection`. -/
def peekFirstBlock (s : State) : Int × Int :=
  match s.m_firstWeightedQueue with
  | [] => (minFinishTimeInit, -1)
  | p1 :: _ =>
    let firstFinishTime := (mapIndex s.m_finishTimeCollection p1.uid).1
    if firstFinishTime ≤ minFinishTimeInit then (firstFinishTime, 0) else (minFinishTimeInit, -1)

/-- The same locals after the block on the second queue (lines 302-309). -/
def peekSecondBlock (s : State) : Int × Int :=
  let b := peekFirstBlock s
  match s.m_secondWeightedQueue with
  | [] => b
  | p2 :: _ =>
    let secondFinishTime := (mapIndex s.m_finishTimeCollection p2.uid).1
    if secondFinishTime ≤ b.1 then (secondFinishTime, 1) else b

/-- `WeightedFairQueue::DoPeek` (lines 287-329), a `const` member function: the returned packet
(`none` for the null pointer) and the state after the call, in which no member was assigned. -/
def DoPeek (_c : Config) (s : State) : Option Packet × State :=
  let b := peekSecondBlock s
  if b.2 = 0 then (s.m_firstWeightedQueue.head?, s)
  else if b.2 = 1 then (s.m_secondWeightedQueue.head?, s)
  else (none, s)

/-- States reached from the constructed scheduler by calls of `DoEnqueue` (with packets of
32-bit size), `DoDequeue` and `DoPeek` that return. -/
inductive Reachable (c : Config) : State → Prop where
  | init : Reachable c initialState
  | enqueue {s s2 : State} {p : Packet} {r : Bool} :
      Reachable c s → p.size < U32 → DoEnqueue c s p = some (r, s2) → Reachable c s2
  | dequeue {s s2 : State} {r : Option Packet} :
      Reachable c s → DoDequeue c s = some (r, s2) → Reachable c s2
  | peek {s : State} : Reachable c s → Reachable c (DoPeek c s).2

end Wide

/-! # Theorems -/

theorem roundToDouble_of_lt {n : Nat} (h : n < 2 ^ 53) : roundToDouble n = n := by
  rw [roundToDouble, if_pos h]

/-- Above `2 ^ 53` the rounded value is one of the two neighbouring multiples of the unit. -/
theorem roundToDouble_cases {n : Nat} (h : ¬ n < 2 ^ 53) :
    roundToDouble n = n / 2 ^ (Nat.log 2 n - 52) * 2 ^ (Nat.log 2 n - 52) ∨
    roundToDouble n = (n / 2 ^ (Nat.log 2 n - 52) + 1) * 2 ^ (Nat.log 2 n - 52) := by
  rw [roundToDouble, if_neg h]
  dsimp only
  split_ifs <;> simp

/-- Facts on the binade of a number that is at least `2 ^ 53`. -/
theorem binade_facts {n : Nat} (h : ¬ n < 2 ^ 53) :
    53 ≤ Nat.log 2 n ∧ 2 ^ 52 * 2 ^ (Nat.log 2 n - 52) ≤ n ∧
    n < 2 ^ 53 * 2 ^ (Nat.log 2 n - 52) ∧
    2 ^ 52 ≤ n / 2 ^ (Nat.log 2 n - 52) ∧ n / 2 ^ (Nat.log 2 n - 52) < 2 ^ 53 := by
  have hn0 : n ≠ 0 := by
    intro h0; apply h; rw [h0]; positivity
  have hL : 53 ≤ Nat.log 2 n := (Nat.pow_le_iff_le_log one_lt_two hn0).1 (not_lt.mp h)
  have h1 : 2 ^ Nat.log 2 n ≤ n := Nat.pow_log_le_self 2 hn0
  have h2 : n < 2 ^ (Nat.log 2 n + 1) := Nat.lt_pow_succ_log_self one_lt_two n
  have e1 : 2 ^ 52 * 2 ^ (Nat.log 2 n - 52) = 2 ^ Nat.log 2 n := by
    rw [← pow_add]; congr 1; omega
  have e2 : 2 ^ 53 * 2 ^ (Nat.log 2 n - 52) = 2 ^ (Nat.log 2 n + 1) := by
    rw [← pow_add]; congr 1; omega
  have hP : 0 < 2 ^ (Nat.log 2 n - 52) := by positivity
  refine ⟨hL, by rw [e1]; exact h1, by rw [e2]; exact h2, ?_, ?_⟩
  · rw [Nat.le_div_iff_mul_le hP, e1]; exact h1
  · rw [Nat.div_lt_iff_lt_mul hP, e2]; exact h2

theorem le_roundToDouble {a n : Nat} (ha : IsDouble a) (h : a ≤ n) : a ≤ roundToDouble n := by
  by_cases hn : n < 2 ^ 53
  · rw [roundToDouble_of_lt hn]; exact h
  · obtain ⟨hL, h1, h2, h3, _⟩ := binade_facts hn
    have hP : 0 < 2 ^ (Nat.log 2 n - 52) := by positivity
    have hq : a ≤ n / 2 ^ (Nat.log 2 n - 52) * 2 ^ (Nat.log 2 n - 52) := by
      by_cases hlt : a < 2 ^ 52 * 2 ^ (Nat.log 2 n - 52)
      · exact le_trans hlt.le (Nat.mul_le_mul_right _ h3)
      · have hla : Nat.log 2 a = Nat.log 2 n := by
          apply Nat.log_eq_of_pow_le_of_lt_pow
          · have : 2 ^ 52 * 2 ^ (Nat.log 2 n - 52) = 2 ^ Nat.log 2 n := by
              rw [← pow_add]; congr 1; omega
            rw [← this]; exact not_lt.mp hlt
          · exact lt_of_le_of_lt h (Nat.lt_pow_succ_log_self one_lt_two n)
        have ha53 : ¬ a < 2 ^ 53 := by
          intro hc
          have : 2 ^ 52 * 2 ^ 1 ≤ 2 ^ 52 * 2 ^ (Nat.log 2 n - 52) :=
            Nat.mul_le_mul_left _ (Nat.pow_le_pow_right (by norm_num) (by omega))
          omega
        rcases ha with ha | ha
        · exact absurd ha ha53
        · rw [hla] at ha
          obtain ⟨k, hk⟩ := ha
          have hk2 : k ≤ n / 2 ^ (Nat.log 2 n - 52) := by
            rw [Nat.le_div_iff_mul_le hP, mul_comm, ← hk]; exact h
          rw [hk, mul_comm]
          exact Nat.mul_le_mul_right _ hk2
    rcases roundToDouble_cases hn with hr | hr
    · rw [hr]; exact hq
    · rw [hr]; exact le_trans hq (Nat.mul_le_mul_right _ (Nat.le_succ _))

theorem isDouble_roundToDouble (n : Nat) : IsDouble (roundToDouble n) := by
  by_cases hn : n < 2 ^ 53
  · rw [roundToDouble_of_lt hn]; exact Or.inl hn
  · obtain ⟨hL, h1, h2, h3, h4⟩ := binade_facts hn
    have e1 : 2 ^ 52 * 2 ^ (Nat.log 2 n - 52) = 2 ^ Nat.log 2 n := by
      rw [← pow_add]; congr 1; omega
    have e2 : 2 ^ 53 * 2 ^ (Nat.log 2 n - 52) = 2 ^ (Nat.log 2 n + 1) := by
      rw [← pow_add]; congr 1; omega
    have key : ∀ m : Nat, 2 ^ 52 ≤ m → m ≤ 2 ^ 53 → IsDouble (m * 2 ^ (Nat.log 2 n - 52)) := by
      intro m hm1 hm2
      right
      rcases Nat.lt_or_ge m (2 ^ 53) with hlt | hge
      · have : Nat.log 2 (m * 2 ^ (Nat.log 2 n - 52)) = Nat.log 2 n := by
          apply Nat.log_eq_of_pow_le_of_lt_pow
          · rw [← e1]; exact Nat.mul_le_mul_right _ hm1
          · rw [← e2]; exact Nat.mul_lt_mul_of_pos_right hlt (by positivity)
        rw [this]; exact Dvd.intro_left m rfl
      · have hm : m = 2 ^ 53 := le_antisymm hm2 hge
        have : Nat.log 2 (m * 2 ^ (Nat.log 2 n - 52)) = Nat.log 2 n + 1 := by
          rw [hm, e2]; exact Nat.log_pow one_lt_two _
        rw [this, hm, e2]
        exact pow_dvd_pow 2 (by omega)
    rcases roundToDouble_cases hn with hr | hr
    · rw [hr]; exact key _ h3 h4.le
    · rw [hr]; exact key _ (by omega) h4

theorem roundToDouble_le_cap {n : Nat} (h : n ≤ 2 ^ 85 + 2 ^ 32) : roundToDouble n ≤ 2 ^ 85 := by
  by_cases hn : n < 2 ^ 53
  · rw [roundToDouble_of_lt hn]; exact le_trans hn.le (by norm_num)
  · obtain ⟨hL, h1, h2, h3, h4⟩ := binade_facts hn
    have e2 : 2 ^ 53 * 2 ^ (Nat.log 2 n - 52) = 2 ^ (Nat.log 2 n + 1) := by
      rw [← pow_add]; congr 1; omega
    have hn0 : n ≠ 0 := by
      intro h0; apply hn; rw [h0]; positivity
    by_cases hlt : n < 2 ^ 85
    · have hL2 : Nat.log 2 n < 85 := (Nat.lt_pow_iff_log_lt one_lt_two hn0).1 hlt
      have hb : roundToDouble n ≤ 2 ^ (Nat.log 2 n + 1) := by
        rw [← e2]
        rcases roundToDouble_cases hn with hr | hr
        · rw [hr]; exact Nat.mul_le_mul_right _ h4.le
        · rw [hr]; exact Nat.mul_le_mul_right _ h4
      exact le_trans hb (Nat.pow_le_pow_right (by norm_num) hL2)
    · have hlog : Nat.log 2 n = 85 := by
        apply Nat.log_eq_of_pow_le_of_lt_pow (not_lt.mp hlt)
        exact lt_of_le_of_lt h (by norm_num)
      rw [roundToDouble, if_neg hn]
      dsimp only
      rw [hlog]
      have hq : n / 2 ^ (85 - 52) = 2 ^ 52 := by
        apply Nat.div_eq_of_lt_le
        · norm_num; norm_num at hlt; omega
        · norm_num; norm_num at h; omega
      have hr : n % 2 ^ (85 - 52) = n - 2 ^ 85 := by
        have := Nat.div_add_mod n (2 ^ (85 - 52))
        rw [hq] at this
        norm_num at this ⊢; omega
      rw [hq, hr]
      norm_num at h hlt ⊢
      split_ifs <;> omega

/-- The initial `minFinishTime` is the literal `1.7e+308` rounded to a double. -/
theorem minFinishTimeInit_eq : minFinishTimeInit = roundToDouble (17 * 10 ^ 307) := by
  have h : Nat.log 2 (17 * 10 ^ 307) = 1023 := by
    apply Nat.log_eq_of_pow_le_of_lt_pow <;> norm_num
  simp only [roundToDouble, h]
  norm_num [minFinishTimeInit]

/-! ## The finish-time table -/

theorem mapFind_mapInsert (m : FinishTimeMap) (k v k2 : Nat) :
    mapFind (mapInsert m k v) k2 = if k2 = k then some v else mapFind m k2 := by
  induction m with
  | nil => simp [mapInsert, mapFind]
  | cons kv m ih =>
    obtain ⟨a, b⟩ := kv
    by_cases hk : k2 = k
    · subst hk
      simp only [mapInsert, if_true]
      by_cases h1 : k2 < a
      · simp [h1, mapFind]
      · by_cases h2 : k2 = a
        · simp [h1, h2, mapFind]
        · simp only [if_neg h1, if_neg h2, mapFind, ih, if_true]
    · simp only [mapInsert, if_neg hk]
      by_cases h1 : k < a
      · simp only [if_pos h1, mapFind, if_neg hk]
      · by_cases h2 : k = a
        · subst h2
          simp only [if_neg h1, if_true, mapFind, if_neg hk]
        · simp only [if_neg h1, if_neg h2, mapFind, ih, if_neg hk]

theorem mapFind_mapErase (m : FinishTimeMap) (k k2 : Nat) :
    mapFind (mapErase m k) k2 = if k2 = k then none else mapFind m k2 := by
  induction m with
  | nil => simp [mapErase, mapFind]
  | cons kv m ih =>
    obtain ⟨a, b⟩ := kv
    unfold mapErase at ih ⊢
    by_cases hak : a = k
    · subst hak
      simp only [List.filter_cons, ne_eq, not_true_eq_false, decide_False, Bool.false_eq_true,
        if_false, ih, mapFind]
      split_ifs <;> rfl
    · simp only [List.filter_cons, ne_eq, hak, not_false_eq_true, decide_True, if_true, mapFind, ih]
      by_cases h1 : k2 = a
      · have : ¬ k2 = k := fun h => hak (h1.symm.trans h)
        simp only [if_pos h1, if_neg this]
      · simp only [if_neg h1]

theorem mapIndex_fst (m : FinishTimeMap) (k : Nat) : (mapIndex m k).1 = ftOf m k := by
  unfold mapIndex ftOf
  cases mapFind m k <;> rfl

theorem mapFind_mapIndex (m : FinishTimeMap) (k k2 : Nat) :
    mapFind (mapIndex m k).2 k2 = if k2 = k then some (ftOf m k) else mapFind m k2 := by
  unfold mapIndex ftOf
  cases h : mapFind m k with
  | none => simp [mapFind_mapInsert]
  | some v =>
    split_ifs with h1
    · subst h1; simp [h]
    · rfl

theorem mapIndex_of_find {m : FinishTimeMap} {k v : Nat} (h : mapFind m k = some v) :
    mapIndex m k = (v, m) := by
  simp [mapIndex, h]

theorem ftOf_mapIndex (m : FinishTimeMap) (k k2 : Nat) : ftOf (mapIndex m k).2 k2 = ftOf m k2 := by
  unfold ftOf
  rw [mapFind_mapIndex]
  split_ifs with h
  · subst h; rfl
  · rfl

theorem ftOf_mapInsert (m : FinishTimeMap) (k v k2 : Nat) :
    ftOf (mapInsert m k v) k2 = if k2 = k then v else ftOf m k2 := by
  unfold ftOf
  rw [mapFind_mapInsert]
  split_ifs <;> rfl

theorem ftOf_mapErase (m : FinishTimeMap) (k k2 : Nat) :
    ftOf (mapErase m k) k2 = if k2 = k then 0 else ftOf m k2 := by
  unfold ftOf
  rw [mapFind_mapErase]
  split_ifs <;> rfl

theorem storedFinishTime_eq (s : State) (uid : Nat) :
    storedFinishTime s uid = ftOf s.m_finishTimeCollection uid :=
  mapIndex_fst _ _

/-! ## Selection -/

theorem Classify_le_one (c : Config) (p : Packet) : Classify c p = 0 ∨ Classify c p = 1 := by
  unfold Classify
  split_ifs <;> simp

/-- The block on the first queue computes the same locals in `DoDequeue` and `DoPeek`, and
leaves every read of the table unchanged. -/
theorem dequeueFirstBlock_eq (s : State) :
    (dequeueFirstBlock s).1 = (peekFirstBlock s).1 ∧
    (dequeueFirstBlock s).2.1 = (peekFirstBlock s).2 ∧
    ∀ k, ftOf (dequeueFirstBlock s).2.2 k = ftOf s.m_finishTimeCollection k := by
  unfold dequeueFirstBlock peekFirstBlock
  cases s.m_firstWeightedQueue with
  | nil => simp
  | cons p1 rest =>
    dsimp only
    split_ifs <;> simp [ftOf_mapIndex]

theorem dequeueSecondBlock_eq (s : State) :
    (dequeueSecondBlock s).1 = (peekSecondBlock s).1 ∧
    (dequeueSecondBlock s).2.1 = (peekSecondBlock s).2 ∧
    ∀ k, ftOf (dequeueSecondBlock s).2.2 k = ftOf s.m_finishTimeCollection k := by
  obtain ⟨h1, h2, h3⟩ := dequeueFirstBlock_eq s
  unfold dequeueSecondBlock peekSecondBlock
  cases s.m_secondWeightedQueue with
  | nil => exact ⟨h1, h2, h3⟩
  | cons p2 rest =>
    dsimp only
    rw [mapIndex_fst, mapIndex_fst, h3, h1]
    split_ifs
    · exact ⟨rfl, rfl, fun k => by rw [ftOf_mapIndex, h3]⟩
    · exact ⟨rfl, h2, fun k => by rw [ftOf_mapIndex, h3]⟩

/-- The class selected by `DoPeek`, in terms of the stored finish times of the two heads. -/
theorem peekSecondBlock_snd (s : State) :
    (peekSecondBlock s).2 =
      match s.m_firstWeightedQueue, s.m_secondWeightedQueue with
      | [], [] => -1
      | p1 :: _, [] => if storedFinishTime s p1.uid ≤ minFinishTimeInit then 0 else -1
      | [], p2 :: _ => if storedFinishTime s p2.uid ≤ minFinishTimeInit then 1 else -1
      | p1 :: _, p2 :: _ =>
        if storedFinishTime s p1.uid ≤ minFinishTimeInit then
          (if storedFinishTime s p2.uid ≤ storedFinishTime s p1.uid then 1 else 0)
        else (if storedFinishTime s p2.uid ≤ minFinishTimeInit then 1 else -1) := by
  unfold peekSecondBlock peekFirstBlock storedFinishTime
  cases s.m_firstWeightedQueue <;> cases s.m_secondWeightedQueue <;> dsimp only <;>
    split_ifs <;> simp_all

/-! ## Case analysis of the operations -/

theorem ite_none_eq_some {α : Type} {q : Prop} [Decidable q] {a b : α}
    (h : (if q then none else some a) = some b) : ¬ q ∧ a = b := by
  split_ifs at h with hq
  exact ⟨hq, Option.some.inj h⟩

theorem DoPeek_snd (c : Config) (s : State) : (DoPeek c s).2 = s := by
  unfold DoPeek
  dsimp only
  split_ifs <;> rfl

theorem peekSecondBlock_range (s : State) :
    (peekSecondBlock s).2 = 0 ∨ (peekSecondBlock s).2 = 1 ∨ (peekSecondBlock s).2 = -1 := by
  rw [peekSecondBlock_snd]
  cases s.m_firstWeightedQueue <;> cases s.m_secondWeightedQueue <;> dsimp only <;>
    (try split_ifs) <;> simp

theorem peekSecondBlock_zero {s : State} (h : (peekSecondBlock s).2 = 0) :
    ∃ p1 rest, s.m_firstWeightedQueue = p1 :: rest := by
  rw [peekSecondBlock_snd] at h
  cases h1 : s.m_firstWeightedQueue with
  | cons p1 rest => exact ⟨p1, rest, rfl⟩
  | nil =>
    rw [h1] at h
    cases h2 : s.m_secondWeightedQueue <;> rw [h2] at h <;> dsimp only at h
    · simp at h
    · split_ifs at h; simp at h

theorem peekSecondBlock_one {s : State} (h : (peekSecondBlock s).2 = 1) :
    ∃ p2 rest, s.m_secondWeightedQueue = p2 :: rest := by
  rw [peekSecondBlock_snd] at h
  cases h2 : s.m_secondWeightedQueue with
  | cons p2 rest => exact ⟨p2, rest, rfl⟩
  | nil =>
    rw [h2] at h
    cases h1 : s.m_firstWeightedQueue <;> rw [h1] at h <;> dsimp only at h
    · simp at h
    · split_ifs at h; simp at h

/-- The three ways `DoDequeue` and `DoPeek` proceed, by the class selected. -/
theorem DoDequeue_cases (c : Config) (s : State) :
    ((peekSecondBlock s).2 = 0 ∧ ∃ p1 rest, s.m_firstWeightedQueue = p1 :: rest ∧
      (DoPeek c s).1 = some p1 ∧
      DoDequeue c s =
        if CalculateWeightSum c s = 0 then none
        else some (some p1,
          { s with
            m_virtualTime := dadd s.m_virtualTime (p1.size / CalculateWeightSum c s)
            m_firstWeightedQueue := rest
            m_bytesInFirstQueue := sub32 s.m_bytesInFirstQueue p1.size
            m_finishTimeCollection := mapErase (dequeueSecondBlock s).2.2 p1.uid })) ∨
    ((peekSecondBlock s).2 = 1 ∧ ∃ p2 rest, s.m_secondWeightedQueue = p2 :: rest ∧
      (DoPeek c s).1 = some p2 ∧
      DoDequeue c s =
        if CalculateWeightSum c s = 0 then none
        else some (some p2,
          { s with
            m_virtualTime := dadd s.m_virtualTime (p2.size / CalculateWeightSum c s)
            m_secondWeightedQueue := rest
            m_bytesInSecondQueue := sub32 s.m_bytesInSecondQueue p2.size
            m_finishTimeCollection := mapErase (dequeueSecondBlock s).2.2 p2.uid })) ∨
    ((peekSecondBlock s).2 = -1 ∧ (DoPeek c s).1 = none ∧
      DoDequeue c s =
        some (none, { s with m_finishTimeCollection := (dequeueSecondBlock s).2.2 })) := by
  have hsel := (dequeueSecondBlock_eq s).2.1
  rcases peekSecondBlock_range s with h | h | h
  · left
    obtain ⟨p1, rest, hq⟩ := peekSecondBlock_zero h
    refine ⟨h, p1, rest, hq, ?_, ?_⟩
    · simp [DoPeek, h, hq]
    · unfold DoDequeue
      simp only [hsel, h, if_true]
      rw [hq]
  · right; left
    obtain ⟨p2, rest, hq⟩ := peekSecondBlock_one h
    refine ⟨h, p2, rest, hq, ?_, ?_⟩
    · simp [DoPeek, h, hq]
    · unfold DoDequeue
      simp only [hsel, h]
      rw [hq]
      simp
  · right; right
    refine ⟨h, ?_, ?_⟩
    · simp [DoPeek, h]
    · unfold DoDequeue
      simp only [hsel, h]
      simp

theorem admissionRejects_zero {c : Config} {s : State} {p : Packet} (h : Classify c p = 0) :
    admissionRejects c s p ↔
      (c.m_mode = QueueMode.QUEUE_MODE_PACKETS ∧
        s.m_firstWeightedQueue.length ≥ c.m_firstMaxPackets) ∨
      (c.m_mode = QueueMode.QUEUE_MODE_BYTES ∧
        add32 s.m_bytesInFirstQueue p.size ≥ c.m_firstMaxBytes) := by
  simp [admissionRejects, h, classQueue, classBytes, classMaxPackets, classMaxBytes, add32, U32]

theorem admissionRejects_one {c : Config} {s : State} {p : Packet} (h : Classify c p = 1) :
    admissionRejects c s p ↔
      (c.m_mode = QueueMode.QUEUE_MODE_PACKETS ∧
        s.m_secondWeightedQueue.length ≥ c.m_secondMaxPackets) ∨
      (c.m_mode = QueueMode.QUEUE_MODE_BYTES ∧
        add32 s.m_bytesInSecondQueue p.size ≥ c.m_secondMaxBytes) := by
  simp [admissionRejects, h, classQueue, classBytes, classMaxPackets, classMaxBytes, add32, U32]

/-- The three ways `DoEnqueue` proceeds: rejection, admission to the first queue, admission to
the second queue. -/
theorem DoEnqueue_cases (c : Config) (s : State) (p : Packet) :
    (admissionRejects c s p ∧ DoEnqueue c s p = some (false, s)) ∨
    (¬ admissionRejects c s p ∧ Classify c p = 0 ∧
      DoEnqueue c s p =
        if c.m_firstWeight = 0 then none
        else some (true,
          { s with
            m_finishTimeCollection :=
              mapInsert (previousFinishTime s s.m_firstWeightedQueue).2 p.uid
                (dadd (previousFinishTime s s.m_firstWeightedQueue).1 (p.size / c.m_firstWeight))
            m_bytesInFirstQueue := add32 s.m_bytesInFirstQueue p.size
            m_firstWeightedQueue := s.m_firstWeightedQueue ++ [p] })) ∨
    (¬ admissionRejects c s p ∧ Classify c p = 1 ∧
      DoEnqueue c s p =
        if c.m_secondWeight = 0 then none
        else some (true,
          { s with
            m_finishTimeCollection :=
              mapInsert (previousFinishTime s s.m_secondWeightedQueue).2 p.uid
                (dadd (previousFinishTime s s.m_secondWeightedQueue).1 (p.size / c.m_secondWeight))
            m_bytesInSecondQueue := add32 s.m_bytesInSecondQueue p.size
            m_secondWeightedQueue := s.m_secondWeightedQueue ++ [p] })) := by
  rcases Classify_le_one c p with hc | hc
  · by_cases hr : admissionRejects c s p
    · left
      refine ⟨hr, ?_⟩
      rw [admissionRejects_zero hc] at hr
      unfold DoEnqueue
      have h01 : ¬ ((0 : Nat) = 1) := by decide
      simp only [hc, h01, eq_self_iff_true, if_false, if_true]
      rcases hr with hr | hr
      · simp [hr]
      · by_cases hp : c.m_mode = QueueMode.QUEUE_MODE_PACKETS ∧
            s.m_firstWeightedQueue.length ≥ c.m_firstMaxPackets
        · simp [hp]
        · simp [hp, hr]
    · right; left
      refine ⟨hr, hc, ?_⟩
      rw [admissionRejects_zero hc, not_or] at hr
      unfold DoEnqueue CalculateFinishTime
      have h01 : ¬ ((0 : Nat) = 1) := by decide
      simp only [hc, h01, eq_self_iff_true, if_false, if_true, if_neg hr.1, if_neg hr.2]
      split_ifs <;> rfl
  · by_cases hr : admissionRejects c s p
    · left
      refine ⟨hr, ?_⟩
      rw [admissionRejects_one hc] at hr
      unfold DoEnqueue
      have h01 : ¬ ((0 : Nat) = 1) := by decide
      simp only [hc, h01, eq_self_iff_true, if_false, if_true]
      rcases hr with hr | hr
      · simp [hr]
      · by_cases hp : c.m_mode = QueueMode.QUEUE_MODE_PACKETS ∧
            s.m_secondWeightedQueue.length ≥ c.m_secondMaxPackets
        · simp [hp]
        · simp [hp, hr]
    · right; right
      refine ⟨hr, hc, ?_⟩
      rw [admissionRejects_one hc, not_or] at hr
      unfold DoEnqueue CalculateFinishTime
      have h01 : ¬ ((0 : Nat) = 1) := by decide
      simp only [hc, h01, eq_self_iff_true, if_false, if_true, if_neg hr.1, if_neg hr.2]
      split_ifs <;> rfl

/-- What a returning call of `DoEnqueue` returned and the state it left. -/
theorem DoEnqueue_result {c : Config} {s s2 : State} {p : Packet} {r : Bool}
    (h : DoEnqueue c s p = some (r, s2)) :
    (r = false ∧ admissionRejects c s p ∧ s2 = s) ∨
    (r = true ∧ ¬ admissionRejects c s p ∧ Classify c p = 0 ∧ c.m_firstWeight ≠ 0 ∧
      s2 = { s with
        m_finishTimeCollection :=
          mapInsert (previousFinishTime s s.m_firstWeightedQueue).2 p.uid
            (dadd (previousFinishTime s s.m_firstWeightedQueue).1 (p.size / c.m_firstWeight))
        m_bytesInFirstQueue := add32 s.m_bytesInFirstQueue p.size
        m_firstWeightedQueue := s.m_firstWeightedQueue ++ [p] }) ∨
    (r = true ∧ ¬ admissionRejects c s p ∧ Classify c p = 1 ∧ c.m_secondWeight ≠ 0 ∧
      s2 = { s with
        m_finishTimeCollection :=
          mapInsert (previousFinishTime s s.m_secondWeightedQueue).2 p.uid
            (dadd (previousFinishTime s s.m_secondWeightedQueue).1 (p.size / c.m_secondWeight))
        m_bytesInSecondQueue := add32 s.m_bytesInSecondQueue p.size
        m_secondWeightedQueue := s.m_secondWeightedQueue ++ [p] }) := by
  rcases DoEnqueue_cases c s p with ⟨hr, hd⟩ | ⟨hn, hc, hd⟩ | ⟨hn, hc, hd⟩
  · rw [hd] at h
    simp only [Option.some.injEq, Prod.mk.injEq] at h
    exact Or.inl ⟨h.1.symm, hr, h.2.symm⟩
  · rw [hd] at h
    obtain ⟨hw, he⟩ := ite_none_eq_some h
    simp only [Prod.mk.injEq] at he
    exact Or.inr (Or.inl ⟨he.1.symm, hn, hc, hw, he.2.symm⟩)
  · rw [hd] at h
    obtain ⟨hw, he⟩ := ite_none_eq_some h
    simp only [Prod.mk.injEq] at he
    exact Or.inr (Or.inr ⟨he.1.symm, hn, hc, hw, he.2.symm⟩)

/-- What a returning call of `DoDequeue` returned and the state it left. -/
theorem DoDequeue_result {c : Config} {s s2 : State} {r : Option Packet}
    (h : DoDequeue c s = some (r, s2)) :
    ((peekSecondBlock s).2 = 0 ∧ ∃ p1 rest, s.m_firstWeightedQueue = p1 :: rest ∧
      r = some p1 ∧ CalculateWeightSum c s ≠ 0 ∧
      s2 = { s with
        m_virtualTime := dadd s.m_virtualTime (p1.size / CalculateWeightSum c s)
        m_firstWeightedQueue := rest
        m_bytesInFirstQueue := sub32 s.m_bytesInFirstQueue p1.size
        m_finishTimeCollection := mapErase (dequeueSecondBlock s).2.2 p1.uid }) ∨
    ((peekSecondBlock s).2 = 1 ∧ ∃ p2 rest, s.m_secondWeightedQueue = p2 :: rest ∧
      r = some p2 ∧ CalculateWeightSum c s ≠ 0 ∧
      s2 = { s with
        m_virtualTime := dadd s.m_virtualTime (p2.size / CalculateWeightSum c s)
        m_secondWeightedQueue := rest
        m_bytesInSecondQueue := sub32 s.m_bytesInSecondQueue p2.size
        m_finishTimeCollection := mapErase (dequeueSecondBlock s).2.2 p2.uid }) ∨
    ((peekSecondBlock s).2 = -1 ∧ r = none ∧
      s2 = { s with m_finishTimeCollection := (dequeueSecondBlock s).2.2 }) := by
  rcases DoDequeue_cases c s with ⟨hs, p, rest, hq, _, hd⟩ | ⟨hs, p, rest, hq, _, hd⟩ | ⟨hs, _, hd⟩
  · rw [hd] at h
    obtain ⟨hw, he⟩ := ite_none_eq_some h
    simp only [Prod.mk.injEq] at he
    exact Or.inl ⟨hs, p, rest, hq, he.1.symm, hw, he.2.symm⟩
  · rw [hd] at h
    obtain ⟨hw, he⟩ := ite_none_eq_some h
    simp only [Prod.mk.injEq] at he
    exact Or.inr (Or.inl ⟨hs, p, rest, hq, he.1.symm, hw, he.2.symm⟩)
  · rw [hd] at h
    simp only [Option.some.injEq, Prod.mk.injEq] at h
    exact Or.inr (Or.inr ⟨hs, h.1.symm, h.2.symm⟩)

/-- Reachability is monotone in the side condition on the enqueued packets. -/
theorem reachableWith_mono {c : Config} {adm adm2 : State → Packet → Prop}
    (himp : ∀ s p, adm s p → adm2 s p) {s : State} (h : ReachableWith c adm s) :
    ReachableWith c adm2 s := by
  induction h with
  | init => exact ReachableWith.init
  | enqueue _ hsz ha hd ih => exact ReachableWith.enqueue ih hsz (himp _ _ ha) hd
  | dequeue _ hd ih => exact ReachableWith.dequeue ih hd
  | peek _ ih => exact ReachableWith.peek ih

/-! ## Selection on ties (C1) -/

/-- C1, counterexample: (1) under `unitConfig`, enqueuing `packetA` (class 0) and `packetB`
(class 1) gives `tieState`, where both buffers are non-empty and both heads have the stored
finish time 100; `DoPeek` and `DoDequeue` then return the head of class 1, `packetB`, not the
head of class 0.  (2) In `aboveInitState` both heads have the same stored finish time, above
the initial `minFinishTime`, and neither head is returned.  (3) In `halfState` both heads have
the stored finish time 0 and `DoDequeue` returns nothing, its divisor being 0. -/
theorem tie_selects_first_counterexample :
    ((DoEnqueue unitConfig initialState packetA).bind
        (fun r => DoEnqueue unitConfig r.2 packetB) = some (true, tieState) ∧
      tieState.m_firstWeightedQueue = [packetA] ∧
      tieState.m_secondWeightedQueue = [packetB] ∧
      storedFinishTime tieState packetA.uid = storedFinishTime tieState packetB.uid ∧
      (DoPeek unitConfig tieState).1 = some packetB ∧
      (DoPeek unitConfig tieState).1 ≠ some packetA ∧
      (DoDequeue unitConfig tieState).map Prod.fst = some (some packetB) ∧
      (DoDequeue unitConfig tieState).map Prod.fst ≠ some (some packetA)) ∧
    (aboveInitState.m_firstWeightedQueue = [packetA] ∧
      aboveInitState.m_secondWeightedQueue = [packetB] ∧
      storedFinishTime aboveInitState packetA.uid = storedFinishTime aboveInitState packetB.uid ∧
      (DoPeek unitConfig aboveInitState).1 = none ∧
      (DoDequeue unitConfig aboveInitState).map Prod.fst = some none) ∧
    (halfState.m_firstWeightedQueue = [packetA] ∧
      halfState.m_secondWeightedQueue = [packetB] ∧
      storedFinishTime halfState packetA.uid = storedFinishTime halfState packetB.uid ∧
      DoDequeue halfConfig halfState = none) := by
  decide

/-- C1, amended: in every state in which both buffers are non-empty and the heads of class 0
and class 1 have equal stored finish times, not above the initial `minFinishTime`, `DoPeek`
returns the head of class 1 (the second buffer); every result `DoDequeue` returns is that
packet, and `DoDequeue` returns whenever the weight sum it divides by is non-zero. -/
theorem tie_selects_second (c : Config) (s : State) (p1 p2 : Packet) (rest1 rest2 : List Packet)
    (h1 : s.m_firstWeightedQueue = p1 :: rest1) (h2 : s.m_secondWeightedQueue = p2 :: rest2)
    (heq : storedFinishTime s p1.uid = storedFinishTime s p2.uid)
    (hle : storedFinishTime s p2.uid ≤ minFinishTimeInit) :
    (DoPeek c s).1 = some p2 ∧
    (∀ r s2, DoDequeue c s = some (r, s2) → r = some p2) ∧
    (CalculateWeightSum c s ≠ 0 → ∃ s2, DoDequeue c s = some (some p2, s2)) := by
  have hsel : (peekSecondBlock s).2 = 1 := by
    rw [peekSecondBlock_snd, h1, h2]
    simp [heq, hle]
  rcases DoDequeue_cases c s with ⟨h, _⟩ | ⟨_, q2, r2, hq, hp, hd⟩ | ⟨h, _⟩
  · rw [hsel] at h; exact absurd h (by decide)
  · rw [h2] at hq
    obtain ⟨rfl, rfl⟩ := List.cons.inj hq
    refine ⟨hp, ?_, ?_⟩
    · intro r s2 hr
      rw [hd] at hr
      split_ifs at hr
      simp only [Option.some.injEq, Prod.mk.injEq] at hr
      exact hr.1.symm
    · intro hw
      rw [hd, if_neg hw]
      exact ⟨_, rfl⟩
  · rw [hsel] at h; exact absurd h (by decide)

/-- Witness of `tie_selects_second` at `tieState`. -/
theorem tie_selects_second_witness :
    (DoPeek unitConfig tieState).1 = some packetB ∧
    (∀ r s2, DoDequeue unitConfig tieState = some (r, s2) → r = some packetB) ∧
    (CalculateWeightSum unitConfig tieState ≠ 0 →
      ∃ s2, DoDequeue unitConfig tieState = some (some packetB, s2)) :=
  tie_selects_second unitConfig tieState packetA packetB [] [] rfl rfl (by decide) (by decide)

/-! ## Integer quotients (C3, C4) -/

/-- C3, the code at the failing input: with weight 3 a packet of 100 bytes admitted to the empty
first queue at virtual time 0 gets the stored finish time 33, which is not `0 + 100 / 3` taken
as a rational quotient. -/
theorem enqueue_finish_time_truncated :
    DoEnqueue weightedConfig initialState packetA = some (true, truncatedState) ∧
      storedFinishTime truncatedState packetA.uid = 33 ∧
      (storedFinishTime truncatedState packetA.uid : ℚ) ≠
        (initialState.m_virtualTime : ℚ) + (packetA.size : ℚ) / (weightedConfig.m_firstWeight : ℚ) := by
  refine ⟨by decide, by decide, ?_⟩
  have h : storedFinishTime truncatedState packetA.uid = 33 := by decide
  rw [h]
  norm_num [initialState, packetA, weightedConfig, unitConfig]

/-- C4, the code at the failing input: with weights 1 and 2 and both buffers non-empty,
`DoDequeue` returns the 100-byte head of class 0 and moves the virtual time from 0 to 33, which
is not `0 + 100 / 3` taken as a rational quotient. -/
theorem dequeue_virtual_time_truncated :
    DoDequeue mixedConfig mixedState = some (some packetA, mixedStateAfter) ∧
      CalculateWeightSum mixedConfig mixedState = 3 ∧
      mixedStateAfter.m_virtualTime = 33 ∧
      (mixedStateAfter.m_virtualTime : ℚ) ≠
        (mixedState.m_virtualTime : ℚ) + (packetA.size : ℚ) / (3 : ℚ) := by
  refine ⟨by decide, by decide, by decide, ?_⟩
  norm_num [mixedStateAfter, mixedState, packetA]

/-! ## Peek and dequeue (C5) -/

/-- C5, amended: `DoPeek` leaves the state (both buffers, both byte counters, the finish-time
table and the virtual time) unchanged, and every result `DoDequeue` returns on a state is the
packet, or the null result, that `DoPeek` returns on that state; `DoDequeue` returns that
result provided `DoPeek` finds no packet or the 32-bit weight sum `DoDequeue` divides by is
non-zero. -/
theorem peek_dequeue_coherence (c : Config) (s : State) :
    (DoPeek c s).2 = s ∧
    (∀ r s2, DoDequeue c s = some (r, s2) → (DoPeek c s).1 = r) ∧
    ((DoPeek c s).1 = none ∨ CalculateWeightSum c s ≠ 0 →
      ∃ s2, DoDequeue c s = some ((DoPeek c s).1, s2)) := by
  refine ⟨DoPeek_snd c s, ?_, ?_⟩
  · intro r s2 hr
    rcases DoDequeue_cases c s with ⟨_, p, rest, _, hp, hd⟩ | ⟨_, p, rest, _, hp, hd⟩ | ⟨_, hp, hd⟩
    · rw [hd] at hr
      split_ifs at hr
      simp only [Option.some.injEq, Prod.mk.injEq] at hr
      rw [hp]; exact hr.1
    · rw [hd] at hr
      split_ifs at hr
      simp only [Option.some.injEq, Prod.mk.injEq] at hr
      rw [hp]; exact hr.1
    · rw [hd] at hr
      simp only [Option.some.injEq, Prod.mk.injEq] at hr
      rw [hp]; exact hr.1
  · intro h
    rcases DoDequeue_cases c s with ⟨_, p, rest, _, hp, hd⟩ | ⟨_, p, rest, _, hp, hd⟩ | ⟨_, hp, hd⟩
    · have hw : CalculateWeightSum c s ≠ 0 := by
        rcases h with h | h
        · rw [hp] at h; exact absurd h (by simp)
        · exact h
      rw [hd, if_neg hw, hp]; exact ⟨_, rfl⟩
    · have hw : CalculateWeightSum c s ≠ 0 := by
        rcases h with h | h
        · rw [hp] at h; exact absurd h (by simp)
        · exact h
      rw [hd, if_neg hw, hp]; exact ⟨_, rfl⟩
    · rw [hd, hp]; exact ⟨_, rfl⟩

/-- Witness of `peek_dequeue_coherence` at `mixedState`, where `DoDequeue` returns `packetA`. -/
theorem peek_dequeue_coherence_witness :
    DoDequeue mixedConfig mixedState = some (some packetA, mixedStateAfter) ∧
    (DoPeek mixedConfig mixedState).1 = some packetA ∧
    CalculateWeightSum mixedConfig mixedState ≠ 0 ∧
    ∃ s2, DoDequeue mixedConfig mixedState = some ((DoPeek mixedConfig mixedState).1, s2) :=
  ⟨by decide,
    (peek_dequeue_coherence mixedConfig mixedState).2.1 (some packetA) mixedStateAfter (by decide),
    by decide,
    (peek_dequeue_coherence mixedConfig mixedState).2.2 (Or.inr (by decide))⟩

/-! ## Admission (C6, C7) -/

/-- C6, counterexample: (1) in byte-count mode with a limit of 100 bytes, the first queue holds
10 bytes and a packet of `2 ^ 32 - 5` bytes arrives.  The sum of the byte counter and the size
is far above the limit, yet `DoEnqueue` returns true: the 32-bit sum wrapped to 5.  (2) With a
first weight of 0 a packet that passes the checks is not answered with true: the finish-time
computation divides by zero. -/
theorem admission_exact_sum_counterexample :
    (byteConfig.m_mode = QueueMode.QUEUE_MODE_BYTES ∧
      Classify byteConfig hugePacket = 0 ∧
      smallState.m_bytesInFirstQueue + hugePacket.size ≥ byteConfig.m_firstMaxBytes ∧
      admissionRejectsExact byteConfig smallState hugePacket ∧
      DoEnqueue byteConfig smallState hugePacket = some (true, wrappedState)) ∧
    (¬ admissionRejectsExact zeroWeightConfig initialState packetA ∧
      DoEnqueue zeroWeightConfig initialState packetA = none) := by
  decide

/-- C6, amended: `DoEnqueue` returns false exactly when, for the class of the packet, the mode is
packet-count and the buffer holds at least `maxPackets` packets, or the mode is byte-count and
the byte counter plus the packet size, added modulo `2 ^ 32`, is at least `maxBytes`.
Otherwise, for a non-zero class weight, it returns true, the packet is appended to the tail of
the buffer of the class and the byte counter becomes the old value plus the size modulo
`2 ^ 32`.  In byte-count mode a packet that makes the byte counter exactly equal to a limit
below `2 ^ 32` is rejected. -/
theorem enqueue_admission_rule (c : Config) (s : State) (p : Packet) :
    ((∃ s2, DoEnqueue c s p = some (false, s2)) ↔ admissionRejects c s p) ∧
    (¬ admissionRejects c s p → 0 < classWeight c (Classify c p) →
      ∃ s2, DoEnqueue c s p = some (true, s2) ∧
        classQueue s2 (Classify c p) = classQueue s (Classify c p) ++ [p] ∧
        classBytes s2 (Classify c p) = (classBytes s (Classify c p) + p.size) % 2 ^ 32) ∧
    (c.m_mode = QueueMode.QUEUE_MODE_BYTES →
      classBytes s (Classify c p) + p.size = classMaxBytes c (Classify c p) →
      classMaxBytes c (Classify c p) < 2 ^ 32 → DoEnqueue c s p = some (false, s)) := by
  have hiff : (∃ s2, DoEnqueue c s p = some (false, s2)) ↔ admissionRejects c s p := by
    constructor
    · rintro ⟨s2, h⟩
      rcases DoEnqueue_cases c s p with ⟨hr, _⟩ | ⟨_, _, hd⟩ | ⟨_, _, hd⟩
      · exact hr
      · rw [hd] at h
        have := (ite_none_eq_some h).2
        simp at this
      · rw [hd] at h
        have := (ite_none_eq_some h).2
        simp at this
    · intro hr
      rcases DoEnqueue_cases c s p with ⟨_, hd⟩ | ⟨hn, _⟩ | ⟨hn, _⟩
      · exact ⟨s, hd⟩
      · exact absurd hr hn
      · exact absurd hr hn
  refine ⟨hiff, ?_, ?_⟩
  · intro hn hw
    rcases DoEnqueue_cases c s p with ⟨hr, _⟩ | ⟨_, hc, hd⟩ | ⟨_, hc, hd⟩
    · exact absurd hr hn
    · rw [hc] at hw ⊢
      have hw0 : c.m_firstWeight ≠ 0 := by
        simp [classWeight] at hw; omega
      rw [hd, if_neg hw0]
      exact ⟨_, rfl, by simp [classQueue], by simp [classBytes, add32, U32]⟩
    · rw [hc] at hw ⊢
      have hw0 : c.m_secondWeight ≠ 0 := by
        simp [classWeight] at hw; omega
      rw [hd, if_neg hw0]
      exact ⟨_, rfl, by simp [classQueue], by simp [classBytes, add32, U32]⟩
  · intro hm hsum hlt
    have hr : admissionRejects c s p := by
      right
      refine ⟨hm, ?_⟩
      rw [hsum, Nat.mod_eq_of_lt hlt]
    rcases DoEnqueue_cases c s p with ⟨_, hd⟩ | ⟨hn, _⟩ | ⟨hn, _⟩
    · exact hd
    · exact absurd hr hn
    · exact absurd hr hn

/-- Witness of `enqueue_admission_rule`: under `byteConfig` the packet `smallPacket` is admitted
to the empty scheduler, and `hugePacket` is admitted after it because the sum wraps. -/
theorem enqueue_admission_rule_witness :
    (¬ admissionRejects byteConfig initialState smallPacket ∧
      0 < classWeight byteConfig (Classify byteConfig smallPacket) ∧
      ∃ s2, DoEnqueue byteConfig initialState smallPacket = some (true, s2) ∧
        classQueue s2 (Classify byteConfig smallPacket) =
          classQueue initialState (Classify byteConfig smallPacket) ++ [smallPacket] ∧
        classBytes s2 (Classify byteConfig smallPacket) =
          (classBytes initialState (Classify byteConfig smallPacket) + smallPacket.size) % 2 ^ 32) ∧
    (admissionRejects unitConfig fullState packetE ∧
      ∃ s2, DoEnqueue unitConfig fullState packetE = some (false, s2)) :=
  ⟨⟨by decide, by decide,
      (enqueue_admission_rule byteConfig initialState smallPacket).2.1 (by decide) (by decide)⟩,
    ⟨by decide, (enqueue_admission_rule unitConfig fullState packetE).1.2 (by decide)⟩⟩

/-- C7: when `DoEnqueue` returns false, the state after the call (both buffers, both byte
counters, the finish-time table and the virtual time) is the state before it. -/
theorem enqueue_rejection_atomic (c : Config) (s : State) (p : Packet) (s2 : State)
    (h : DoEnqueue c s p = some (false, s2)) : s2 = s := by
  rcases DoEnqueue_cases c s p with ⟨_, hd⟩ | ⟨_, _, hd⟩ | ⟨_, _, hd⟩
  · rw [hd] at h
    simp only [Option.some.injEq, Prod.mk.injEq, true_and] at h
    exact h.symm
  · rw [hd] at h
    have := (ite_none_eq_some h).2
    simp at this
  · rw [hd] at h
    have := (ite_none_eq_some h).2
    simp at this

/-- Witness of `enqueue_rejection_atomic`: a third class-0 packet offered to `fullState`, whose
first queue holds its maximum of two packets, is rejected. -/
theorem enqueue_rejection_atomic_witness :
    DoEnqueue unitConfig fullState packetE = some (false, fullState) ∧ fullState = fullState :=
  ⟨by decide, enqueue_rejection_atomic unitConfig fullState packetE fullState (by decide)⟩

/-! ## Properties of all stored finish times -/

theorem tableAll_ftOf {P : Nat → Prop} {m : FinishTimeMap} (h : TableAll P m) (h0 : P 0)
    (k : Nat) : P (ftOf m k) := by
  unfold ftOf
  cases hf : mapFind m k with
  | none => exact h0
  | some v => exact h k v hf

theorem tableAll_mapInsert {P : Nat → Prop} {m : FinishTimeMap} (h : TableAll P m) {v : Nat}
    (hv : P v) (k : Nat) : TableAll P (mapInsert m k v) := by
  intro k2 v2 hf
  rw [mapFind_mapInsert] at hf
  split_ifs at hf
  · rw [← Option.some.inj hf]; exact hv
  · exact h k2 v2 hf

theorem tableAll_mapErase {P : Nat → Prop} {m : FinishTimeMap} (h : TableAll P m) (k : Nat) :
    TableAll P (mapErase m k) := by
  intro k2 v2 hf
  rw [mapFind_mapErase] at hf
  split_ifs at hf
  exact h k2 v2 hf

theorem tableAll_mapIndex {P : Nat → Prop} {m : FinishTimeMap} (h : TableAll P m) (h0 : P 0)
    (k : Nat) : TableAll P (mapIndex m k).2 := by
  intro k2 v2 hf
  rw [mapFind_mapIndex] at hf
  split_ifs at hf
  · rw [← Option.some.inj hf]; exact tableAll_ftOf h h0 k
  · exact h k2 v2 hf

theorem tableAll_dequeueSecondBlock {P : Nat → Prop} {s : State}
    (h : TableAll P s.m_finishTimeCollection) (h0 : P 0) :
    TableAll P (dequeueSecondBlock s).2.2 := by
  have h1 : TableAll P (dequeueFirstBlock s).2.2 := by
    unfold dequeueFirstBlock
    cases s.m_firstWeightedQueue with
    | nil => exact h
    | cons p1 rest =>
      dsimp only
      split_ifs <;> exact tableAll_mapIndex h h0 _
  unfold dequeueSecondBlock
  cases s.m_secondWeightedQueue with
  | nil => exact h1
  | cons p2 rest =>
    dsimp only
    split_ifs <;> exact tableAll_mapIndex h1 h0 _

theorem tableAll_previousFinishTime {P : Nat → Prop} {s : State}
    (h : TableAll P s.m_finishTimeCollection) (h0 : P 0) (hv : P s.m_virtualTime)
    (q : List Packet) :
    P (previousFinishTime s q).1 ∧ TableAll P (previousFinishTime s q).2 := by
  unfold previousFinishTime
  cases q.getLast? with
  | none => exact ⟨hv, h⟩
  | some back =>
    dsimp only
    rw [mapIndex_fst]
    exact ⟨tableAll_ftOf h h0 _, tableAll_mapIndex h h0 _⟩

/-! ## Capacity in packet-count mode (C8) -/

/-- The state `tieState` is reached by enqueuing `packetA` and `packetB`. -/
theorem tieState_reachable : Reachable unitConfig tieState := by
  have h1 : ReachableWith unitConfig (fun _ _ => True) stateA :=
    ReachableWith.enqueue ReachableWith.init (by decide : packetA.size < U32) trivial
      (by decide : DoEnqueue unitConfig initialState packetA = some (true, stateA))
  exact ReachableWith.enqueue h1 (by decide : packetB.size < U32) trivial
    (by decide : DoEnqueue unitConfig stateA packetB = some (true, tieState))

/-- C8: in packet-count mode, in every state reached from the constructed scheduler by calls of
`DoEnqueue`, `DoDequeue` and `DoPeek`, the first buffer holds at most `m_firstMaxPackets`
packets and the second at most `m_secondMaxPackets`. -/
theorem packet_capacity_invariant (c : Config) (s : State)
    (hm : c.m_mode = QueueMode.QUEUE_MODE_PACKETS) (hr : Reachable c s) :
    s.m_firstWeightedQueue.length ≤ c.m_firstMaxPackets ∧
    s.m_secondWeightedQueue.length ≤ c.m_secondMaxPackets := by
  unfold Reachable at hr
  induction hr with
  | init => simp [initialState]
  | @enqueue s s2 p r _ _ _ hd ih =>
    rcases DoEnqueue_result hd with ⟨_, _, rfl⟩ | ⟨_, hn, hc, _, rfl⟩ | ⟨_, hn, hc, _, rfl⟩
    · exact ih
    · rw [admissionRejects_zero hc] at hn
      simp only [hm, true_and, not_or, not_le, ge_iff_le] at hn
      refine ⟨?_, ih.2⟩
      simp only [List.length_append, List.length_singleton]
      omega
    · rw [admissionRejects_one hc] at hn
      simp only [hm, true_and, not_or, not_le, ge_iff_le] at hn
      refine ⟨ih.1, ?_⟩
      simp only [List.length_append, List.length_singleton]
      omega
  | @dequeue s s2 r _ hd ih =>
    rcases DoDequeue_result hd with ⟨_, p, rest, hq, _, _, rfl⟩ | ⟨_, p, rest, hq, _, _, rfl⟩ |
      ⟨_, _, rfl⟩
    · rw [hq] at ih
      simp only [List.length_cons] at ih
      exact ⟨by dsimp only; omega, ih.2⟩
    · rw [hq] at ih
      simp only [List.length_cons] at ih
      exact ⟨ih.1, by dsimp only; omega⟩
    · exact ih
  | peek _ ih => rw [DoPeek_snd]; exact ih

/-- Witness of `packet_capacity_invariant` at `tieState`. -/
theorem packet_capacity_invariant_witness :
    unitConfig.m_mode = QueueMode.QUEUE_MODE_PACKETS ∧ Reachable unitConfig tieState ∧
    tieState.m_firstWeightedQueue.length ≤ unitConfig.m_firstMaxPackets ∧
    tieState.m_secondWeightedQueue.length ≤ unitConfig.m_secondMaxPackets :=
  ⟨rfl, tieState_reachable, packet_capacity_invariant unitConfig tieState rfl tieState_reachable⟩

/-! ## Capacity in byte-count mode (C9) -/

theorem sub32_of_le {a b : Nat} (hb : b ≤ a) (ha : a < U32) : sub32 a b = a - b := by
  unfold sub32 U32 at *
  have hb2 : b % 2 ^ 32 = b := Nat.mod_eq_of_lt (lt_of_le_of_lt hb ha)
  rw [hb2]
  have : a + (2 ^ 32 - b) = (a - b) + 2 ^ 32 := by omega
  rw [this, Nat.add_mod_right]
  exact Nat.mod_eq_of_lt (by omega)

theorem add32_of_lt {a b : Nat} (h : a + b < U32) : add32 a b = a + b := by
  unfold add32
  exact Nat.mod_eq_of_lt h

/-- Without 32-bit overflow in the admission checks, each byte counter is the sum of the sizes
of the packets of its buffer, and stays below `2 ^ 32`. -/
theorem bytes_eq_sum_of_noWrap {c : Config} {s : State} (hr : ReachableNoWrap c s) :
    (s.m_bytesInFirstQueue = (s.m_firstWeightedQueue.map Packet.size).sum ∧
      s.m_bytesInFirstQueue < U32) ∧
    (s.m_bytesInSecondQueue = (s.m_secondWeightedQueue.map Packet.size).sum ∧
      s.m_bytesInSecondQueue < U32) := by
  unfold ReachableNoWrap at hr
  induction hr with
  | init => simp [initialState, U32]
  | @enqueue s s2 p r _ _ ha hd ih =>
    rcases DoEnqueue_result hd with ⟨_, _, rfl⟩ | ⟨_, _, hc, _, rfl⟩ | ⟨_, _, hc, _, rfl⟩
    · exact ih
    · rw [hc] at ha
      simp only [classBytes, if_true] at ha
      refine ⟨?_, ih.2⟩
      dsimp only
      rw [add32_of_lt ha]
      refine ⟨?_, ha⟩
      rw [List.map_append, List.sum_append, ih.1.1]
      simp
    · rw [hc] at ha
      simp only [classBytes, one_ne_zero, if_false] at ha
      refine ⟨ih.1, ?_⟩
      dsimp only
      rw [add32_of_lt ha]
      refine ⟨?_, ha⟩
      rw [List.map_append, List.sum_append, ih.2.1]
      simp
  | @dequeue s s2 r _ hd ih =>
    rcases DoDequeue_result hd with ⟨_, p, rest, hq, _, _, rfl⟩ | ⟨_, p, rest, hq, _, _, rfl⟩ |
      ⟨_, _, rfl⟩
    · refine ⟨?_, ih.2⟩
      dsimp only
      have h1 := ih.1.1
      rw [hq, List.map_cons, List.sum_cons] at h1
      rw [sub32_of_le (by omega) ih.1.2]
      exact ⟨by omega, lt_of_le_of_lt (Nat.sub_le _ _) ih.1.2⟩
    · refine ⟨ih.1, ?_⟩
      dsimp only
      have h1 := ih.2.1
      rw [hq, List.map_cons, List.sum_cons] at h1
      rw [sub32_of_le (by omega) ih.2.2]
      exact ⟨by omega, lt_of_le_of_lt (Nat.sub_le _ _) ih.2.2⟩
    · exact ih
  | peek _ ih => rw [DoPeek_snd]; exact ih

theorem wrappedStateAfter_reachable : Reachable byteConfig wrappedStateAfter := by
  have h1 : ReachableWith byteConfig (fun _ _ => True) smallState :=
    ReachableWith.enqueue ReachableWith.init (by decide : smallPacket.size < U32) trivial
      (by decide : DoEnqueue byteConfig initialState smallPacket = some (true, smallState))
  have h2 : ReachableWith byteConfig (fun _ _ => True) wrappedState :=
    ReachableWith.enqueue h1 (by decide : hugePacket.size < U32) trivial
      (by decide : DoEnqueue byteConfig smallState hugePacket = some (true, wrappedState))
  exact ReachableWith.dequeue h2
    (by decide : DoDequeue byteConfig wrappedState = some (some smallPacket, wrappedStateAfter))

theorem smallState_reachableNoWrap : ReachableNoWrap byteConfig smallState :=
  ReachableWith.enqueue ReachableWith.init (by decide : smallPacket.size < U32)
    (by decide : classBytes initialState (Classify byteConfig smallPacket) + smallPacket.size < U32)
    (by decide : DoEnqueue byteConfig initialState smallPacket = some (true, smallState))

/-- C9, counterexample: (1) with a byte limit of 0 the constructed scheduler has a byte counter
of 0, which is not below the limit; (2) with a byte limit of 100, enqueuing a 10-byte packet,
then a packet of `2 ^ 32 - 5` bytes (admitted because the 32-bit sum wraps to 5), then
dequeuing the first, reaches a state whose byte counter is `2 ^ 32 - 5`, above the limit. -/
theorem byte_capacity_counterexample :
    (zeroLimitConfig.m_mode = QueueMode.QUEUE_MODE_BYTES ∧
      Reachable zeroLimitConfig initialState ∧
      ¬ initialState.m_bytesInFirstQueue < zeroLimitConfig.m_firstMaxBytes) ∧
    (byteConfig.m_mode = QueueMode.QUEUE_MODE_BYTES ∧
      Reachable byteConfig wrappedStateAfter ∧
      ¬ wrappedStateAfter.m_bytesInFirstQueue < byteConfig.m_firstMaxBytes) :=
  ⟨⟨by decide, ReachableWith.init, by decide⟩,
    ⟨by decide, wrappedStateAfter_reachable, by decide⟩⟩

/-- C9, amended: in byte-count mode with both byte limits positive, in every state reached from
the constructed scheduler by calls of `DoEnqueue`, `DoDequeue` and `DoPeek` in which no
admission check overflows 32 bits (the byte counter of the class of the offered packet plus
the size of the packet is below `2 ^ 32`), each byte counter is strictly below the byte limit
of its class. -/
theorem byte_capacity_invariant (c : Config) (s : State)
    (hm : c.m_mode = QueueMode.QUEUE_MODE_BYTES)
    (h1 : 0 < c.m_firstMaxBytes) (h2 : 0 < c.m_secondMaxBytes) (hr : ReachableNoWrap c s) :
    s.m_bytesInFirstQueue < c.m_firstMaxBytes ∧ s.m_bytesInSecondQueue < c.m_secondMaxBytes := by
  unfold ReachableNoWrap at hr
  induction hr with
  | init => exact ⟨h1, h2⟩
  | @enqueue s s2 p r hs _ ha hd ih =>
    rcases DoEnqueue_result hd with ⟨_, _, rfl⟩ | ⟨_, hn, hc, _, rfl⟩ | ⟨_, hn, hc, _, rfl⟩
    · exact ih
    · rw [admissionRejects_zero hc] at hn
      simp only [hm, true_and, not_or, not_le, ge_iff_le] at hn
      exact ⟨hn.2, ih.2⟩
    · rw [admissionRejects_one hc] at hn
      simp only [hm, true_and, not_or, not_le, ge_iff_le] at hn
      exact ⟨ih.1, hn.2⟩
  | @dequeue s s2 r hs hd ih =>
    have hb := bytes_eq_sum_of_noWrap hs
    rcases DoDequeue_result hd with ⟨_, p, rest, hq, _, _, rfl⟩ | ⟨_, p, rest, hq, _, _, rfl⟩ |
      ⟨_, _, rfl⟩
    · refine ⟨?_, ih.2⟩
      dsimp only
      have h3 := hb.1.1
      rw [hq, List.map_cons, List.sum_cons] at h3
      rw [sub32_of_le (by omega) hb.1.2]
      omega
    · refine ⟨ih.1, ?_⟩
      dsimp only
      have h3 := hb.2.1
      rw [hq, List.map_cons, List.sum_cons] at h3
      rw [sub32_of_le (by omega) hb.2.2]
      omega
    · exact ih
  | peek _ ih => rw [DoPeek_snd]; exact ih

/-- Witness of `byte_capacity_invariant` at `smallState`. -/
theorem byte_capacity_invariant_witness :
    byteConfig.m_mode = QueueMode.QUEUE_MODE_BYTES ∧
    0 < byteConfig.m_firstMaxBytes ∧ 0 < byteConfig.m_secondMaxBytes ∧
    ReachableNoWrap byteConfig smallState ∧
    smallState.m_bytesInFirstQueue < byteConfig.m_firstMaxBytes ∧
    smallState.m_bytesInSecondQueue < byteConfig.m_secondMaxBytes :=
  ⟨rfl, by decide, by decide, smallState_reachableNoWrap,
    byte_capacity_invariant byteConfig smallState rfl (by decide) (by decide)
      smallState_reachableNoWrap⟩

/-! ## Magnitude of the stored finish times and the null result (C10) -/

theorem dadd_le_cap {a b : Nat} (ha : a ≤ 2 ^ 85) (hb : b < U32) : dadd a b ≤ 2 ^ 85 := by
  unfold dadd
  apply roundToDouble_le_cap
  unfold U32 at hb
  omega

theorem cap_le_minFinishTimeInit : 2 ^ 85 ≤ minFinishTimeInit := by
  norm_num [minFinishTimeInit]

/-- In every reachable state the virtual time and every stored finish time are at most
`2 ^ 85` (beyond it, adding a 32-bit quotient no longer changes a double), and every resident
packet has a 32-bit size. -/
theorem reachable_stored_bound {c : Config} {s : State} (hr : Reachable c s) :
    s.m_virtualTime ≤ 2 ^ 85 ∧ TableAll (fun v => v ≤ 2 ^ 85) s.m_finishTimeCollection ∧
    ∀ p ∈ s.m_firstWeightedQueue ++ s.m_secondWeightedQueue, p.size < U32 := by
  unfold Reachable at hr
  induction hr with
  | init =>
    refine ⟨by simp [initialState], ?_, by simp [initialState]⟩
    intro k v h
    simp [initialState, mapFind] at h
  | @enqueue s s2 p r _ hsz _ hd ih =>
    obtain ⟨hv, ht, hp⟩ := ih
    rcases DoEnqueue_result hd with ⟨_, _, rfl⟩ | ⟨_, _, _, _, rfl⟩ | ⟨_, _, _, _, rfl⟩
    · exact ⟨hv, ht, hp⟩
    · have hprev := tableAll_previousFinishTime ht (Nat.zero_le _) hv s.m_firstWeightedQueue
      refine ⟨hv, ?_, ?_⟩
      · exact tableAll_mapInsert hprev.2
          (dadd_le_cap hprev.1 (lt_of_le_of_lt (Nat.div_le_self _ _) hsz)) _
      · intro q hq
        simp only [List.mem_append, List.mem_singleton] at hq
        rcases hq with (hq | rfl) | hq
        · exact hp q (List.mem_append_left _ hq)
        · exact hsz
        · exact hp q (List.mem_append_right _ hq)
    · have hprev := tableAll_previousFinishTime ht (Nat.zero_le _) hv s.m_secondWeightedQueue
      refine ⟨hv, ?_, ?_⟩
      · exact tableAll_mapInsert hprev.2
          (dadd_le_cap hprev.1 (lt_of_le_of_lt (Nat.div_le_self _ _) hsz)) _
      · intro q hq
        simp only [List.mem_append, List.mem_singleton] at hq
        rcases hq with hq | hq | rfl
        · exact hp q (List.mem_append_left _ hq)
        · exact hp q (List.mem_append_right _ hq)
        · exact hsz
  | @dequeue s s2 r _ hd ih =>
    obtain ⟨hv, ht, hp⟩ := ih
    have hblk := tableAll_dequeueSecondBlock ht (Nat.zero_le _)
    rcases DoDequeue_result hd with ⟨_, p, rest, hq, _, _, rfl⟩ | ⟨_, p, rest, hq, _, _, rfl⟩ |
      ⟨_, _, rfl⟩
    · have hps : p.size < U32 := hp p (by rw [hq]; simp)
      refine ⟨dadd_le_cap hv (lt_of_le_of_lt (Nat.div_le_self _ _) hps), tableAll_mapErase hblk _, ?_⟩
      intro q hq2
      apply hp q
      rw [hq]
      simp only [List.mem_append] at hq2 ⊢
      rcases hq2 with h | h
      · exact Or.inl (List.mem_cons_of_mem _ h)
      · exact Or.inr h
    · have hps : p.size < U32 := hp p (by rw [hq]; simp)
      refine ⟨dadd_le_cap hv (lt_of_le_of_lt (Nat.div_le_self _ _) hps), tableAll_mapErase hblk _, ?_⟩
      intro q hq2
      apply hp q
      rw [hq]
      simp only [List.mem_append] at hq2 ⊢
      rcases hq2 with h | h
      · exact Or.inl h
      · exact Or.inr (List.mem_cons_of_mem _ h)
    · exact ⟨hv, hblk, hp⟩
  | peek _ ih => rw [DoPeek_snd]; exact ih

/-- When no stored finish time exceeds the initial `minFinishTime`, the selection finds no class
exactly when both buffers are empty. -/
theorem peekSecondBlock_neg_one_iff {s : State}
    (h : ∀ k, storedFinishTime s k ≤ minFinishTimeInit) :
    (peekSecondBlock s).2 = -1 ↔ s.m_firstWeightedQueue = [] ∧ s.m_secondWeightedQueue = [] := by
  rw [peekSecondBlock_snd]
  cases s.m_firstWeightedQueue with
  | nil =>
    cases s.m_secondWeightedQueue with
    | nil => simp
    | cons p2 r2 => simp [h p2.uid]
  | cons p1 r1 =>
    cases s.m_secondWeightedQueue with
    | nil => simp [h p1.uid]
    | cons p2 r2 =>
      simp only [h p1.uid, if_true]
      split_ifs <;> simp

theorem dequeueSecondBlock_of_empty {s : State} (h1 : s.m_firstWeightedQueue = [])
    (h2 : s.m_secondWeightedQueue = []) :
    (dequeueSecondBlock s).2.2 = s.m_finishTimeCollection := by
  simp [dequeueSecondBlock, dequeueFirstBlock, h1, h2]

theorem halfState_reachable : Reachable halfConfig halfState := by
  have h1 : ReachableWith halfConfig (fun _ _ => True)
      { stateA with m_finishTimeCollection := [(1, 0)] } :=
    ReachableWith.enqueue ReachableWith.init (by decide : packetA.size < U32) trivial
      (by decide : DoEnqueue halfConfig initialState packetA =
        some (true, { stateA with m_finishTimeCollection := [(1, 0)] }))
  exact ReachableWith.enqueue h1 (by decide : packetB.size < U32) trivial
    (by decide : DoEnqueue halfConfig { stateA with m_finishTimeCollection := [(1, 0)] } packetB =
      some (true, halfState))

/-- C10, counterexample: with both weights `2 ^ 31` (positive 32-bit values), enqueuing
`packetA` and `packetB` reaches `halfState`, where both buffers are non-empty; `DoPeek` returns
a packet, but `DoDequeue` returns nothing: the 32-bit weight sum is 0 and the virtual-time
advance divides by it. -/
theorem dequeue_nonempty_counterexample :
    Reachable halfConfig halfState ∧
      halfState.m_firstWeightedQueue ≠ [] ∧ halfState.m_secondWeightedQueue ≠ [] ∧
      0 < halfConfig.m_firstWeight ∧ halfConfig.m_firstWeight < 2 ^ 32 ∧
      0 < halfConfig.m_secondWeight ∧ halfConfig.m_secondWeight < 2 ^ 32 ∧
      CalculateWeightSum halfConfig halfState = 0 ∧
      (DoPeek halfConfig halfState).1 = some packetB ∧
      DoDequeue halfConfig halfState = none :=
  ⟨halfState_reachable, by decide, by decide, by decide, by decide, by decide, by decide,
    by decide, by decide, by decide⟩

/-- C10, amended: in every state reached from the constructed scheduler, `DoPeek` returns the
null result exactly when both buffers are empty; every result `DoDequeue` returns is the null
result exactly when both buffers are empty; `DoDequeue` returns the null result, leaving the
state unchanged, when both buffers are empty, and returns a packet when a buffer is non-empty
and the 32-bit weight sum it divides by is non-zero. -/
theorem dequeue_none_iff_empty (c : Config) (s : State) (hr : Reachable c s) :
    ((DoPeek c s).1 = none ↔ s.m_firstWeightedQueue = [] ∧ s.m_secondWeightedQueue = []) ∧
    (∀ r s2, DoDequeue c s = some (r, s2) →
      (r = none ↔ s.m_firstWeightedQueue = [] ∧ s.m_secondWeightedQueue = [])) ∧
    (s.m_firstWeightedQueue = [] ∧ s.m_secondWeightedQueue = [] →
      DoDequeue c s = some (none, s)) ∧
    (¬ (s.m_firstWeightedQueue = [] ∧ s.m_secondWeightedQueue = []) →
      CalculateWeightSum c s ≠ 0 → ∃ p s2, DoDequeue c s = some (some p, s2)) := by
  obtain ⟨_, ht, _⟩ := reachable_stored_bound hr
  have hle : ∀ k, storedFinishTime s k ≤ minFinishTimeInit := by
    intro k
    rw [storedFinishTime_eq]
    exact le_trans (tableAll_ftOf ht (Nat.zero_le _) k) cap_le_minFinishTimeInit
  have hiff := peekSecondBlock_neg_one_iff hle
  rcases DoDequeue_cases c s with ⟨hs, p, rest, hq, hp, hd⟩ | ⟨hs, p, rest, hq, hp, hd⟩ |
    ⟨hs, hp, hd⟩
  · have hne : ¬ (s.m_firstWeightedQueue = [] ∧ s.m_secondWeightedQueue = []) := by
      rw [← hiff, hs]; decide
    refine ⟨by rw [hp]; simp [hne], ?_, fun h => absurd h hne, ?_⟩
    · intro r s2 h
      rw [hd] at h
      have := (ite_none_eq_some h).2
      simp only [Prod.mk.injEq] at this
      rw [← this.1]; simp [hne]
    · intro _ hw
      rw [hd, if_neg hw]; exact ⟨_, _, rfl⟩
  · have hne : ¬ (s.m_firstWeightedQueue = [] ∧ s.m_secondWeightedQueue = []) := by
      rw [← hiff, hs]; decide
    refine ⟨by rw [hp]; simp [hne], ?_, fun h => absurd h hne, ?_⟩
    · intro r s2 h
      rw [hd] at h
      have := (ite_none_eq_some h).2
      simp only [Prod.mk.injEq] at this
      rw [← this.1]; simp [hne]
    · intro _ hw
      rw [hd, if_neg hw]; exact ⟨_, _, rfl⟩
  · have he := hiff.1 hs
    refine ⟨by rw [hp]; simp [he], ?_, ?_, fun h => absurd he h⟩
    · intro r s2 h
      rw [hd] at h
      simp only [Option.some.injEq, Prod.mk.injEq] at h
      rw [← h.1]; simp [he]
    · intro _
      rw [hd, dequeueSecondBlock_of_empty he.1 he.2]

/-- Witness of `dequeue_none_iff_empty` at `tieState`, where `DoDequeue` returns `packetB`. -/
theorem dequeue_none_iff_empty_witness :
    Reachable unitConfig tieState ∧
    ¬ (tieState.m_firstWeightedQueue = [] ∧ tieState.m_secondWeightedQueue = []) ∧
    CalculateWeightSum unitConfig tieState ≠ 0 ∧
    (DoPeek unitConfig tieState).1 ≠ none ∧
    ∃ p s2, DoDequeue unitConfig tieState = some (some p, s2) :=
  ⟨tieState_reachable, by decide, by decide, by decide,
    (dequeue_none_iff_empty unitConfig tieState tieState_reachable).2.2.2 (by decide) (by decide)⟩

/-! ## Departure in order of finish time (C2) -/

theorem le_dadd {a : Nat} (ha : IsDouble a) (b : Nat) : a ≤ dadd a b :=
  le_roundToDouble ha (Nat.le_add_right a b)

theorem isDouble_zero : IsDouble 0 := Or.inl (by norm_num)

theorem isDouble_dadd (a b : Nat) : IsDouble (dadd a b) := isDouble_roundToDouble _

theorem ftOf_of_find {m : FinishTimeMap} {k v : Nat} (h : mapFind m k = some v) :
    ftOf m k = v := by
  simp [ftOf, h]

/-- When every packet of the queue has an entry, reading the previous finish time leaves the
table as it is and yields the virtual time or the finish time of the packet at the back. -/
theorem previousFinishTime_of_present {s : State} {q : List Packet}
    (h : ∀ p ∈ q, ∃ v, mapFind s.m_finishTimeCollection p.uid = some v) :
    (previousFinishTime s q).2 = s.m_finishTimeCollection ∧
    ((q = [] ∧ (previousFinishTime s q).1 = s.m_virtualTime) ∨
      ∃ back, q.getLast? = some back ∧
        (previousFinishTime s q).1 = ftOf s.m_finishTimeCollection back.uid) := by
  unfold previousFinishTime
  cases hl : q.getLast? with
  | none => exact ⟨rfl, Or.inl ⟨List.getLast?_eq_none_iff.1 hl, rfl⟩⟩
  | some back =>
    obtain ⟨v, hv⟩ := h back (List.mem_of_getLast?_eq_some hl)
    dsimp only
    rw [mapIndex_of_find hv]
    exact ⟨rfl, Or.inr ⟨back, rfl, (ftOf_of_find hv).symm⟩⟩

/-- When the heads of both queues have entries, the reads of `DoDequeue` leave the table as it
is. -/
theorem dequeueSecondBlock_of_present {s : State}
    (h : ∀ p ∈ s.m_firstWeightedQueue ++ s.m_secondWeightedQueue,
      ∃ v, mapFind s.m_finishTimeCollection p.uid = some v) :
    (dequeueSecondBlock s).2.2 = s.m_finishTimeCollection := by
  have h1 : (dequeueFirstBlock s).2.2 = s.m_finishTimeCollection := by
    unfold dequeueFirstBlock
    cases hq : s.m_firstWeightedQueue with
    | nil => rfl
    | cons p1 rest =>
      obtain ⟨v, hv⟩ := h p1 (by rw [hq]; simp)
      dsimp only
      rw [mapIndex_of_find hv]
      split_ifs <;> rfl
  unfold dequeueSecondBlock
  cases hq : s.m_secondWeightedQueue with
  | nil => exact h1
  | cons p2 rest =>
    obtain ⟨v, hv⟩ := h p2 (by rw [hq]; simp)
    dsimp only
    rw [h1, mapIndex_of_find hv]
    split_ifs
    · rfl
    · rfl

theorem finishTimeSorted_le_back {m : FinishTimeMap} {q : List Packet}
    (h : FinishTimeSorted m q) {a back : Packet} (ha : a ∈ q) (hb : q.getLast? = some back) :
    ftOf m a.uid ≤ ftOf m back.uid := by
  obtain ⟨ys, rfl⟩ := List.getLast?_eq_some_iff.1 hb
  unfold FinishTimeSorted at h
  rw [List.pairwise_append] at h
  rcases List.mem_append.1 ha with h1 | h1
  · exact h.2.2 a h1 back (List.mem_singleton.2 rfl)
  · rw [List.mem_singleton.1 h1]

theorem finishTimeSorted_head_le {m : FinishTimeMap} {p : Packet} {rest : List Packet}
    (h : FinishTimeSorted m (p :: rest)) {a : Packet} (ha : a ∈ p :: rest) :
    ftOf m p.uid ≤ ftOf m a.uid := by
  unfold FinishTimeSorted at h
  rcases List.mem_cons.1 ha with rfl | h1
  · exact le_refl _
  · exact (List.pairwise_cons.1 h).1 a h1

theorem finishTimeSorted_congr {m m2 : FinishTimeMap} {q : List Packet}
    (h : FinishTimeSorted m q) (he : ∀ a ∈ q, ftOf m2 a.uid = ftOf m a.uid) :
    FinishTimeSorted m2 q := by
  unfold FinishTimeSorted at h ⊢
  refine h.imp_of_mem ?_
  intro a b ha hb hab
  rw [he a ha, he b hb]; exact hab

/-- Appending a packet whose finish time is at least that of every packet of the buffer. -/
theorem finishTimeSorted_append {m : FinishTimeMap} {q : List Packet} {p : Packet}
    (h : FinishTimeSorted m q) (hp : ∀ a ∈ q, ftOf m a.uid ≤ ftOf m p.uid) :
    FinishTimeSorted m (q ++ [p]) := by
  unfold FinishTimeSorted at h ⊢
  rw [List.pairwise_append]
  refine ⟨h, List.pairwise_singleton _ _, ?_⟩
  intro a ha b hb
  rw [List.mem_singleton.1 hb]; exact hp a ha

theorem residentUids_eq (s : State) :
    residentUids s =
      s.m_firstWeightedQueue.map Packet.uid ++ s.m_secondWeightedQueue.map Packet.uid := by
  simp [residentUids]

theorem mem_residentUids {s : State} {p : Packet}
    (h : p ∈ s.m_firstWeightedQueue ++ s.m_secondWeightedQueue) : p.uid ∈ residentUids s :=
  List.mem_map_of_mem Packet.uid h

/-- Admission of a packet with a fresh id to a buffer `q` ordered by finish time: with the new
entry the buffer extended by the packet is still ordered. -/
theorem finishTimeSorted_admit {s : State} {q : List Packet} {p : Packet} (x : Nat)
    (hq : FinishTimeSorted s.m_finishTimeCollection q)
    (hpres : ∀ a ∈ q, ∃ v, mapFind s.m_finishTimeCollection a.uid = some v)
    (hdbl : TableAll IsDouble s.m_finishTimeCollection)
    (hfresh : ∀ a ∈ q, a.uid ≠ p.uid) :
    FinishTimeSorted
      (mapInsert (previousFinishTime s q).2 p.uid (dadd (previousFinishTime s q).1 x))
      (q ++ [p]) := by
  obtain ⟨ht, hprev⟩ := previousFinishTime_of_present hpres
  rw [ht]
  have hold : ∀ a ∈ q, ftOf (mapInsert s.m_finishTimeCollection p.uid
      (dadd (previousFinishTime s q).1 x)) a.uid = ftOf s.m_finishTimeCollection a.uid := by
    intro a ha
    rw [ftOf_mapInsert, if_neg (hfresh a ha)]
  apply finishTimeSorted_append (finishTimeSorted_congr hq hold)
  intro a ha
  rw [hold a ha, ftOf_mapInsert, if_pos rfl]
  rcases hprev with ⟨he, _⟩ | ⟨back, hb, hval⟩
  · rw [he] at ha; exact absurd ha (List.not_mem_nil a)
  · rw [hval]
    exact le_trans (finishTimeSorted_le_back hq ha hb) (le_dadd (tableAll_ftOf hdbl isDouble_zero _) x)

theorem present_mapInsert {m : FinishTimeMap} {l : List Packet} (k v : Nat)
    (h : ∀ a ∈ l, ∃ w, mapFind m a.uid = some w) :
    ∀ a ∈ l, ∃ w, mapFind (mapInsert m k v) a.uid = some w := by
  intro a ha
  rw [mapFind_mapInsert]
  split_ifs
  · exact ⟨v, rfl⟩
  · exact h a ha

theorem present_mapErase {m : FinishTimeMap} {l : List Packet} {k : Nat}
    (hk : ∀ a ∈ l, a.uid ≠ k) (h : ∀ a ∈ l, ∃ w, mapFind m a.uid = some w) :
    ∀ a ∈ l, ∃ w, mapFind (mapErase m k) a.uid = some w := by
  intro a ha
  rw [mapFind_mapErase, if_neg (hk a ha)]
  exact h a ha

theorem finishTimeSorted_mapInsert {m : FinishTimeMap} {l : List Packet} {k : Nat} (v : Nat)
    (hk : ∀ a ∈ l, a.uid ≠ k) (h : FinishTimeSorted m l) :
    FinishTimeSorted (mapInsert m k v) l :=
  finishTimeSorted_congr h (fun a ha => by rw [ftOf_mapInsert, if_neg (hk a ha)])

theorem finishTimeSorted_mapErase {m : FinishTimeMap} {l : List Packet} {k : Nat}
    (hk : ∀ a ∈ l, a.uid ≠ k) (h : FinishTimeSorted m l) :
    FinishTimeSorted (mapErase m k) l :=
  finishTimeSorted_congr h (fun a ha => by rw [ftOf_mapErase, if_neg (hk a ha)])

theorem finishTimeSorted_tail {m : FinishTimeMap} {p : Packet} {rest : List Packet}
    (h : FinishTimeSorted m (p :: rest)) : FinishTimeSorted m rest :=
  (List.pairwise_cons.1 h).2

theorem present_split {m : FinishTimeMap} {l1 l2 : List Packet}
    (h1 : ∀ a ∈ l1, ∃ w, mapFind m a.uid = some w) (h2 : ∀ a ∈ l2, ∃ w, mapFind m a.uid = some w) :
    ∀ a ∈ l1 ++ l2, ∃ w, mapFind m a.uid = some w := by
  intro a ha
  rcases List.mem_append.1 ha with h | h
  · exact h1 a h
  · exact h2 a h

/-- The invariant holds in every state reached by executions that enqueue only packets whose id
differs from the resident ones. -/
theorem distinctInv_of_reachable {c : Config} {s : State} (hr : ReachableDistinct c s) :
    DistinctInv s := by
  unfold ReachableDistinct at hr
  induction hr with
  | init =>
    refine ⟨by simp [residentUids, initialState], by simp [initialState], isDouble_zero, ?_,
      List.Pairwise.nil, List.Pairwise.nil⟩
    intro k v h
    simp [initialState, mapFind] at h
  | @enqueue s s2 p r _ _ ha hd ih =>
    obtain ⟨hnd, hpres, hv, ht, hs1, hs2⟩ := ih
    have hp1 : ∀ a ∈ s.m_firstWeightedQueue,
        ∃ w, mapFind s.m_finishTimeCollection a.uid = some w :=
      fun a h => hpres a (List.mem_append_left _ h)
    have hp2 : ∀ a ∈ s.m_secondWeightedQueue,
        ∃ w, mapFind s.m_finishTimeCollection a.uid = some w :=
      fun a h => hpres a (List.mem_append_right _ h)
    have hf1 : ∀ a ∈ s.m_firstWeightedQueue, a.uid ≠ p.uid :=
      fun a h e => ha (e ▸ mem_residentUids (List.mem_append_left _ h))
    have hf2 : ∀ a ∈ s.m_secondWeightedQueue, a.uid ≠ p.uid :=
      fun a h e => ha (e ▸ mem_residentUids (List.mem_append_right _ h))
    rw [residentUids_eq] at ha hnd
    rcases DoEnqueue_result hd with ⟨_, _, rfl⟩ | ⟨_, _, _, _, rfl⟩ | ⟨_, _, _, _, rfl⟩
    · rw [← residentUids_eq] at hnd
      exact ⟨hnd, hpres, hv, ht, hs1, hs2⟩
    · have hprev := tableAll_previousFinishTime ht isDouble_zero hv s.m_firstWeightedQueue
      have hadm := finishTimeSorted_admit (p.size / c.m_firstWeight) hs1 hp1 ht hf1
      have heq := (previousFinishTime_of_present hp1).1
      refine ⟨?_, ?_, hv, tableAll_mapInsert hprev.2 (isDouble_dadd _ _) _, hadm, ?_⟩
      · rw [residentUids_eq]
        dsimp only
        rw [List.map_append, List.map_singleton, List.append_assoc, List.singleton_append,
          List.nodup_middle, List.nodup_cons]
        exact ⟨ha, hnd⟩
      · dsimp only
        rw [heq]
        apply present_split
        · intro a h
          rcases List.mem_append.1 h with h | h
          · exact present_mapInsert _ _ hp1 a h
          · rw [List.mem_singleton.1 h, mapFind_mapInsert, if_pos rfl]; exact ⟨_, rfl⟩
        · exact present_mapInsert _ _ hp2
      · dsimp only
        rw [heq]
        exact finishTimeSorted_mapInsert _ hf2 hs2
    · have hprev := tableAll_previousFinishTime ht isDouble_zero hv s.m_secondWeightedQueue
      have hadm := finishTimeSorted_admit (p.size / c.m_secondWeight) hs2 hp2 ht hf2
      have heq := (previousFinishTime_of_present hp2).1
      refine ⟨?_, ?_, hv, tableAll_mapInsert hprev.2 (isDouble_dadd _ _) _, ?_, hadm⟩
      · rw [residentUids_eq]
        dsimp only
        rw [List.map_append, List.map_singleton, ← List.append_assoc,
          List.nodup_middle, List.nodup_cons, List.append_nil]
        exact ⟨ha, hnd⟩
      · dsimp only
        rw [heq]
        apply present_split
        · exact present_mapInsert _ _ hp1
        · intro a h
          rcases List.mem_append.1 h with h | h
          · exact present_mapInsert _ _ hp2 a h
          · rw [List.mem_singleton.1 h, mapFind_mapInsert, if_pos rfl]; exact ⟨_, rfl⟩
      · dsimp only
        rw [heq]
        exact finishTimeSorted_mapInsert _ hf1 hs1
  | @dequeue s s2 r _ hd ih =>
    obtain ⟨hnd, hpres, hv, ht, hs1, hs2⟩ := ih
    have htbl := dequeueSecondBlock_of_present hpres
    rw [residentUids_eq] at hnd
    rcases DoDequeue_result hd with ⟨_, p, rest, hq, _, _, rfl⟩ | ⟨_, p, rest, hq, _, _, rfl⟩ |
      ⟨_, _, rfl⟩
    · rw [hq] at hpres hs1
      rw [hq, List.map_cons, List.cons_append, List.nodup_cons] at hnd
      have hk1 : ∀ a ∈ rest, a.uid ≠ p.uid := fun a h e =>
        hnd.1 (e ▸ List.mem_append_left _ (List.mem_map_of_mem Packet.uid h))
      have hk2 : ∀ a ∈ s.m_secondWeightedQueue, a.uid ≠ p.uid := fun a h e =>
        hnd.1 (e ▸ List.mem_append_right _ (List.mem_map_of_mem Packet.uid h))
      refine ⟨?_, ?_, isDouble_dadd _ _, ?_, ?_, ?_⟩
      · rw [residentUids_eq]; exact hnd.2
      · dsimp only
        rw [htbl]
        apply present_split
        · exact present_mapErase hk1
            (fun a h => hpres a (List.mem_append_left _ (List.mem_cons_of_mem _ h)))
        · exact present_mapErase hk2 (fun a h => hpres a (List.mem_append_right _ h))
      · dsimp only; rw [htbl]; exact tableAll_mapErase ht _
      · dsimp only; rw [htbl]; exact finishTimeSorted_mapErase hk1 (finishTimeSorted_tail hs1)
      · dsimp only; rw [htbl]; exact finishTimeSorted_mapErase hk2 hs2
    · rw [hq] at hpres hs2
      rw [hq, List.map_cons, List.nodup_middle, List.nodup_cons] at hnd
      have hk1 : ∀ a ∈ s.m_firstWeightedQueue, a.uid ≠ p.uid := fun a h e =>
        hnd.1 (e ▸ List.mem_append_left _ (List.mem_map_of_mem Packet.uid h))
      have hk2 : ∀ a ∈ rest, a.uid ≠ p.uid := fun a h e =>
        hnd.1 (e ▸ List.mem_append_right _ (List.mem_map_of_mem Packet.uid h))
      refine ⟨?_, ?_, isDouble_dadd _ _, ?_, ?_, ?_⟩
      · rw [residentUids_eq]; exact hnd.2
      · dsimp only
        rw [htbl]
        apply present_split
        · exact present_mapErase hk1 (fun a h => hpres a (List.mem_append_left _ h))
        · exact present_mapErase hk2
            (fun a h => hpres a (List.mem_append_right _ (List.mem_cons_of_mem _ h)))
      · dsimp only; rw [htbl]; exact tableAll_mapErase ht _
      · dsimp only; rw [htbl]; exact finishTimeSorted_mapErase hk1 hs1
      · dsimp only; rw [htbl]; exact finishTimeSorted_mapErase hk2 (finishTimeSorted_tail hs2)
    · rw [htbl]
      rw [← residentUids_eq] at hnd
      exact ⟨hnd, hpres, hv, ht, hs1, hs2⟩
  | peek _ ih => rw [DoPeek_snd]; exact ih

theorem mixedState_reachableDistinct : ReachableDistinct mixedConfig mixedState := by
  have h1 : ReachableWith mixedConfig (fun s p => p.uid ∉ residentUids s) stateA :=
    ReachableWith.enqueue ReachableWith.init (by decide : packetA.size < U32)
      (by decide : packetA.uid ∉ residentUids initialState)
      (by decide : DoEnqueue mixedConfig initialState packetA = some (true, stateA))
  exact ReachableWith.enqueue h1 (by decide : packetC.size < U32)
    (by decide : packetC.uid ∉ residentUids stateA)
    (by decide : DoEnqueue mixedConfig stateA packetC = some (true, mixedState))

/-- C2: in every state reached from the constructed scheduler by calls of `DoEnqueue`,
`DoDequeue` and `DoPeek` in which each enqueued packet has an id distinct from the resident
ones, a packet returned by `DoDequeue` has a stored finish time less than or equal to the
stored finish time of every packet resident in either buffer at the moment of the call.  (A
zero weight makes the admitting `DoEnqueue` divide by zero, so no state is reached through
it.) -/
theorem dequeue_global_minimum (c : Config) (s : State) (hr : ReachableDistinct c s)
    (p : Packet) (s2 : State) (hd : DoDequeue c s = some (some p, s2)) :
    ∀ q ∈ s.m_firstWeightedQueue ++ s.m_secondWeightedQueue,
      storedFinishTime s p.uid ≤ storedFinishTime s q.uid := by
  obtain ⟨_, _, _, _, hs1, hs2⟩ := distinctInv_of_reachable hr
  intro q hq
  have hsel := peekSecondBlock_snd s
  rw [storedFinishTime_eq, storedFinishTime_eq]
  rcases DoDequeue_result hd with ⟨h0, p1, rest, hq1, hp, _, _⟩ | ⟨h1, p2, rest, hq2, hp, _, _⟩ |
    ⟨_, hp, _⟩
  · obtain rfl := Option.some.inj hp
    rw [hq1] at hs1 hq
    rcases List.mem_append.1 hq with hm | hm
    · exact finishTimeSorted_head_le hs1 hm
    · cases hq2 : s.m_secondWeightedQueue with
      | nil => rw [hq2] at hm; exact absurd hm (List.not_mem_nil q)
      | cons p2 rest2 =>
        rw [hq2] at hs2 hm
        rw [h0, hq1, hq2] at hsel
        dsimp only at hsel
        simp only [storedFinishTime_eq] at hsel
        have hlt : ftOf s.m_finishTimeCollection p.uid ≤ ftOf s.m_finishTimeCollection p2.uid := by
          split_ifs at hsel <;> omega
        exact le_trans hlt (finishTimeSorted_head_le hs2 hm)
  · obtain rfl := Option.some.inj hp
    rw [hq2] at hs2 hq
    rcases List.mem_append.1 hq with hm | hm
    · cases hq1 : s.m_firstWeightedQueue with
      | nil => rw [hq1] at hm; exact absurd hm (List.not_mem_nil q)
      | cons p1 rest1 =>
        rw [hq1] at hs1 hm
        rw [h1, hq1, hq2] at hsel
        dsimp only at hsel
        simp only [storedFinishTime_eq] at hsel
        have hlt : ftOf s.m_finishTimeCollection p.uid ≤ ftOf s.m_finishTimeCollection p1.uid := by
          split_ifs at hsel <;> omega
        exact le_trans hlt (finishTimeSorted_head_le hs1 hm)
    · exact finishTimeSorted_head_le hs2 hm
  · exact absurd hp (by simp)

/-- Witness of `dequeue_global_minimum` at `mixedState`, where `DoDequeue` returns `packetA`
(finish time 100) while `packetC` (finish time 150) stays. -/
theorem dequeue_global_minimum_witness :
    ReachableDistinct mixedConfig mixedState ∧
    DoDequeue mixedConfig mixedState = some (some packetA, mixedStateAfter) ∧
    ∀ q ∈ mixedState.m_firstWeightedQueue ++ mixedState.m_secondWeightedQueue,
      storedFinishTime mixedState packetA.uid ≤ storedFinishTime mixedState q.uid :=
  ⟨mixedState_reachableDistinct, by decide,
    dequeue_global_minimum mixedConfig mixedState mixedState_reachableDistinct packetA
      mixedStateAfter (by decide)⟩

/-! ## More on rounding: fixed points and monotonicity -/

theorem roundToDouble_le_pow_succ {n : Nat} (h : ¬ n < 2 ^ 53) :
    roundToDouble n ≤ 2 ^ (Nat.log 2 n + 1) := by
  obtain ⟨hL, _, _, _, h4⟩ := binade_facts h
  have e2 : 2 ^ 53 * 2 ^ (Nat.log 2 n - 52) = 2 ^ (Nat.log 2 n + 1) := by
    rw [← pow_add]; congr 1; omega
  rw [← e2]
  rcases roundToDouble_cases h with hr | hr
  · rw [hr]; exact Nat.mul_le_mul_right _ h4.le
  · rw [hr]; exact Nat.mul_le_mul_right _ h4

theorem pow_log_le_roundToDouble {n : Nat} (h : ¬ n < 2 ^ 53) :
    2 ^ Nat.log 2 n ≤ roundToDouble n := by
  obtain ⟨hL, _, _, h3, _⟩ := binade_facts h
  have e1 : 2 ^ 52 * 2 ^ (Nat.log 2 n - 52) = 2 ^ Nat.log 2 n := by
    rw [← pow_add]; congr 1; omega
  rw [← e1]
  rcases roundToDouble_cases h with hr | hr
  · rw [hr]; exact Nat.mul_le_mul_right _ h3
  · rw [hr]; exact Nat.mul_le_mul_right _ (by omega)

/-- Rounding to the nearest double is monotone. -/
theorem roundToDouble_mono {a b : Nat} (h : a ≤ b) : roundToDouble a ≤ roundToDouble b := by
  by_cases ha : a < 2 ^ 53
  · rw [roundToDouble_of_lt ha]
    exact le_roundToDouble (Or.inl ha) h
  · have hb : ¬ b < 2 ^ 53 := fun hc => ha (lt_of_le_of_lt h hc)
    have hlog : Nat.log 2 a ≤ Nat.log 2 b := Nat.log_mono_right h
    rcases Nat.lt_or_ge (Nat.log 2 a) (Nat.log 2 b) with hlt | hge
    · exact le_trans (roundToDouble_le_pow_succ ha)
        (le_trans (Nat.pow_le_pow_right (by norm_num) hlt) (pow_log_le_roundToDouble hb))
    · have hL : Nat.log 2 a = Nat.log 2 b := le_antisymm hlog hge
      have hP : 0 < 2 ^ (Nat.log 2 b - 52) := by positivity
      have hq : a / 2 ^ (Nat.log 2 b - 52) ≤ b / 2 ^ (Nat.log 2 b - 52) :=
        Nat.div_le_div_right h
      rcases Nat.lt_or_ge (a / 2 ^ (Nat.log 2 b - 52)) (b / 2 ^ (Nat.log 2 b - 52)) with hql | hqg
      · have h1 : roundToDouble a ≤ (a / 2 ^ (Nat.log 2 b - 52) + 1) * 2 ^ (Nat.log 2 b - 52) := by
          rcases roundToDouble_cases ha with hr | hr
          · rw [hr, hL]; exact Nat.mul_le_mul_right _ (Nat.le_succ _)
          · rw [hr, hL]
        have h2 : b / 2 ^ (Nat.log 2 b - 52) * 2 ^ (Nat.log 2 b - 52) ≤ roundToDouble b := by
          rcases roundToDouble_cases hb with hr | hr
          · rw [hr]
          · rw [hr]; exact Nat.mul_le_mul_right _ (Nat.le_succ _)
        exact le_trans h1 (le_trans (Nat.mul_le_mul_right _ hql) h2)
      · have hqe : a / 2 ^ (Nat.log 2 b - 52) = b / 2 ^ (Nat.log 2 b - 52) := le_antisymm hq hqg
        have hda := Nat.div_add_mod a (2 ^ (Nat.log 2 b - 52))
        have hdb := Nat.div_add_mod b (2 ^ (Nat.log 2 b - 52))
        rw [hqe] at hda
        have hrem : a % 2 ^ (Nat.log 2 b - 52) ≤ b % 2 ^ (Nat.log 2 b - 52) := by omega
        rw [roundToDouble, if_neg ha, roundToDouble, if_neg hb]
        dsimp only
        rw [hL, hqe]
        have hsucc : (b / 2 ^ (Nat.log 2 b - 52) + 1) * 2 ^ (Nat.log 2 b - 52) =
            b / 2 ^ (Nat.log 2 b - 52) * 2 ^ (Nat.log 2 b - 52) + 2 ^ (Nat.log 2 b - 52) := by
          rw [Nat.add_mul, Nat.one_mul]
        rw [hsucc]
        generalize b / 2 ^ (Nat.log 2 b - 52) * 2 ^ (Nat.log 2 b - 52) = X at *
        generalize 2 ^ (Nat.log 2 b - 52) = P at *
        split_ifs <;> omega

theorem dadd_mono_right (a : Nat) {x y : Nat} (h : x ≤ y) : dadd a x ≤ dadd a y :=
  roundToDouble_mono (Nat.add_le_add_left h a)

/-! ## The finish-time table holds exactly the resident ids (C11) -/

theorem mapFind_isSome_iff (m : FinishTimeMap) (k : Nat) :
    (∃ v, mapFind m k = some v) ↔ k ∈ mapKeys m := by
  induction m with
  | nil => simp [mapFind, mapKeys]
  | cons kv m ih =>
    obtain ⟨a, b⟩ := kv
    unfold mapKeys at ih ⊢
    simp only [mapFind, List.map_cons, List.mem_cons]
    by_cases h : k = a
    · simp [h]
    · simp only [if_neg h, h, false_or]
      exact ih

theorem mapKeys_mapInsert_perm (m : FinishTimeMap) (k v : Nat) (hk : k ∉ mapKeys m) :
    (mapKeys (mapInsert m k v)).Perm (k :: mapKeys m) := by
  induction m with
  | nil => simp [mapInsert, mapKeys]
  | cons kv m ih =>
    obtain ⟨a, b⟩ := kv
    unfold mapKeys at ih hk ⊢
    simp only [List.map_cons, List.mem_cons, not_or] at hk
    simp only [mapInsert]
    by_cases h1 : k < a
    · simp only [if_pos h1, List.map_cons]
      exact List.Perm.refl _
    · simp only [if_neg h1, if_neg hk.1, List.map_cons]
      exact (List.Perm.cons a (ih hk.2)).trans (List.Perm.swap k a _)

theorem mapKeys_mapErase (m : FinishTimeMap) (k : Nat) :
    mapKeys (mapErase m k) = (mapKeys m).filter (fun x => decide (x ≠ k)) := by
  unfold mapKeys mapErase
  rw [List.filter_map]
  rfl

theorem filter_ne_of_not_mem {l : List Nat} {k : Nat} (h : k ∉ l) :
    l.filter (fun x => decide (x ≠ k)) = l := by
  rw [List.filter_eq_self]
  intro a ha
  simp only [ne_eq, decide_eq_true_eq]
  intro e
  exact h (e ▸ ha)

/-- With distinct resident ids, the ids with an entry in the table are, up to order, the ids of
the resident packets. -/
theorem mapKeys_perm_residentUids {c : Config} {s : State} (hr : ReachableDistinct c s) :
    (mapKeys s.m_finishTimeCollection).Perm (residentUids s) := by
  unfold ReachableDistinct at hr
  induction hr with
  | init => simp [mapKeys, residentUids, initialState]
  | @enqueue s s2 p r hs _ ha hd ih =>
    obtain ⟨_, hpres, _, _, _, _⟩ := distinctInv_of_reachable hs
    have hkey : p.uid ∉ mapKeys s.m_finishTimeCollection := fun h => ha (ih.subset h)
    have hp1 : ∀ a ∈ s.m_firstWeightedQueue,
        ∃ w, mapFind s.m_finishTimeCollection a.uid = some w :=
      fun a h => hpres a (List.mem_append_left _ h)
    have hp2 : ∀ a ∈ s.m_secondWeightedQueue,
        ∃ w, mapFind s.m_finishTimeCollection a.uid = some w :=
      fun a h => hpres a (List.mem_append_right _ h)
    rw [residentUids_eq] at ih
    rcases DoEnqueue_result hd with ⟨_, _, rfl⟩ | ⟨_, _, _, _, rfl⟩ | ⟨_, _, _, _, rfl⟩
    · rw [residentUids_eq]; exact ih
    · rw [residentUids_eq]
      dsimp only
      rw [(previousFinishTime_of_present hp1).1, List.map_append, List.map_singleton,
        List.append_assoc, List.singleton_append]
      exact ((mapKeys_mapInsert_perm _ _ _ hkey).trans (List.Perm.cons _ ih)).trans
        List.perm_middle.symm
    · rw [residentUids_eq]
      dsimp only
      rw [(previousFinishTime_of_present hp2).1, List.map_append, List.map_singleton,
        ← List.append_assoc]
      exact ((mapKeys_mapInsert_perm _ _ _ hkey).trans (List.Perm.cons _ ih)).trans
        (List.perm_append_singleton _ _).symm
  | @dequeue s s2 r hs hd ih =>
    obtain ⟨hnd, hpres, _, _, _, _⟩ := distinctInv_of_reachable hs
    have htbl := dequeueSecondBlock_of_present hpres
    rw [residentUids_eq] at ih hnd
    rcases DoDequeue_result hd with ⟨_, p, rest, hq, _, _, rfl⟩ | ⟨_, p, rest, hq, _, _, rfl⟩ |
      ⟨_, _, rfl⟩
    · rw [residentUids_eq]
      dsimp only
      rw [htbl, mapKeys_mapErase]
      rw [hq, List.map_cons, List.cons_append] at ih hnd
      have hf := ih.filter (fun x => decide (x ≠ p.uid))
      rw [List.filter_cons, if_neg (by simp), filter_ne_of_not_mem (List.nodup_cons.1 hnd).1] at hf
      exact hf
    · rw [residentUids_eq]
      dsimp only
      rw [htbl, mapKeys_mapErase]
      rw [hq, List.map_cons] at ih hnd
      have hnd2 := List.nodup_cons.1 (List.nodup_middle.1 hnd)
      have hf := (ih.trans List.perm_middle).filter (fun x => decide (x ≠ p.uid))
      rw [List.filter_cons, if_neg (by simp), filter_ne_of_not_mem hnd2.1] at hf
      exact hf
    · rw [residentUids_eq]
      dsimp only
      rw [htbl]
      exact ih
  | peek _ ih => rw [DoPeek_snd]; exact ih

/-- C11: in every state reached from the constructed scheduler by calls of `DoEnqueue`,
`DoDequeue` and `DoPeek` in which each enqueued packet has an id distinct from the resident
ones, the finish-time table has an entry for an id exactly when exactly one resident packet
(counting both buffers) has that id, and the number of entries of the table is the total number
of resident packets. -/
theorem finish_time_table_invariant (c : Config) (s : State) (hr : ReachableDistinct c s) :
    (∀ k, (∃ v, mapFind s.m_finishTimeCollection k = some v) ↔ (residentUids s).count k = 1) ∧
    s.m_finishTimeCollection.length =
      s.m_firstWeightedQueue.length + s.m_secondWeightedQueue.length := by
  have hperm := mapKeys_perm_residentUids hr
  have hnd := (distinctInv_of_reachable hr).1
  constructor
  · intro k
    rw [mapFind_isSome_iff, hperm.mem_iff]
    constructor
    · intro h
      exact List.count_eq_one_of_mem hnd h
    · intro h
      exact List.count_pos_iff.1 (by omega)
  · have hl := hperm.length_eq
    simp only [mapKeys, residentUids, List.length_map, List.length_append] at hl
    exact hl

/-- Witness of `finish_time_table_invariant` at `mixedState`: the table has the two entries of
the two resident packets. -/
theorem finish_time_table_invariant_witness :
    ReachableDistinct mixedConfig mixedState ∧
    ((∃ v, mapFind mixedState.m_finishTimeCollection 3 = some v) ↔
      (residentUids mixedState).count 3 = 1) ∧
    mixedState.m_finishTimeCollection.length =
      mixedState.m_firstWeightedQueue.length + mixedState.m_secondWeightedQueue.length :=
  ⟨mixedState_reachableDistinct,
    (finish_time_table_invariant mixedConfig mixedState mixedState_reachableDistinct).1 3,
    (finish_time_table_invariant mixedConfig mixedState mixedState_reachableDistinct).2⟩

/-! ## The state after a dequeue (C12) -/

theorem DoDequeue_mem {c : Config} {t t2 : State} {q : Packet}
    (h : DoDequeue c t = some (some q, t2)) :
    q ∈ t.m_firstWeightedQueue ++ t.m_secondWeightedQueue := by
  rcases DoDequeue_result h with ⟨_, p, rest, hq, hp, _, _⟩ | ⟨_, p, rest, hq, hp, _, _⟩ |
    ⟨_, hp, _⟩
  · obtain rfl := Option.some.inj hp
    rw [hq]; simp
  · obtain rfl := Option.some.inj hp
    rw [hq]; simp
  · exact absurd hp (by simp)

/-- Along a run that enqueues no packet with the id `uid`, an id that is not resident stays
not resident. -/
theorem runWithout_not_resident {c : Config} {uid : Nat} {s t : State}
    (h0 : ∀ x ∈ s.m_firstWeightedQueue ++ s.m_secondWeightedQueue, x.uid ≠ uid)
    (hrun : RunWithout c uid s t) :
    ∀ x ∈ t.m_firstWeightedQueue ++ t.m_secondWeightedQueue, x.uid ≠ uid := by
  induction hrun with
  | refl => exact h0
  | @enqueue t t2 p r _ hp hd ih =>
    rcases DoEnqueue_result hd with ⟨_, _, rfl⟩ | ⟨_, _, _, _, rfl⟩ | ⟨_, _, _, _, rfl⟩
    · exact ih
    · intro x hx
      simp only [List.mem_append, List.mem_singleton] at hx
      rcases hx with (hx | rfl) | hx
      · exact ih x (List.mem_append_left _ hx)
      · exact hp
      · exact ih x (List.mem_append_right _ hx)
    · intro x hx
      simp only [List.mem_append, List.mem_singleton] at hx
      rcases hx with hx | hx | rfl
      · exact ih x (List.mem_append_left _ hx)
      · exact ih x (List.mem_append_right _ hx)
      · exact hp
  | @dequeue t t2 r _ hd ih =>
    rcases DoDequeue_result hd with ⟨_, p, rest, hq, _, _, rfl⟩ | ⟨_, p, rest, hq, _, _, rfl⟩ |
      ⟨_, _, rfl⟩
    · intro x hx
      apply ih x
      rw [hq]
      simp only [List.mem_append] at hx ⊢
      rcases hx with hx | hx
      · exact Or.inl (List.mem_cons_of_mem _ hx)
      · exact Or.inr hx
    · intro x hx
      apply ih x
      rw [hq]
      simp only [List.mem_append] at hx ⊢
      rcases hx with hx | hx
      · exact Or.inl hx
      · exact Or.inr (List.mem_cons_of_mem _ hx)
    · exact ih
  | peek _ ih => rw [DoPeek_snd]; exact ih

theorem wrappedState_reachableDistinct : ReachableDistinct byteConfig wrappedState := by
  have h1 : ReachableWith byteConfig (fun s p => p.uid ∉ residentUids s) smallState :=
    ReachableWith.enqueue ReachableWith.init (by decide : smallPacket.size < U32)
      (by decide : smallPacket.uid ∉ residentUids initialState)
      (by decide : DoEnqueue byteConfig initialState smallPacket = some (true, smallState))
  exact ReachableWith.enqueue h1 (by decide : hugePacket.size < U32)
    (by decide : hugePacket.uid ∉ residentUids smallState)
    (by decide : DoEnqueue byteConfig smallState hugePacket = some (true, wrappedState))

/-- C12, counterexample: `wrappedState` is reached with distinct ids (a 10-byte packet, then a
packet of `2 ^ 32 - 5` bytes whose admission wrapped the byte counter to 5).  `DoDequeue`
returns the 10-byte packet and the byte counter of its class goes from 5 to `2 ^ 32 - 5`: it
is not decreased by the size of the packet. -/
theorem dequeue_bytes_counterexample :
    ReachableDistinct byteConfig wrappedState ∧
      DoDequeue byteConfig wrappedState = some (some smallPacket, wrappedStateAfter) ∧
      wrappedState.m_bytesInFirstQueue = 5 ∧ smallPacket.size = 10 ∧
      wrappedStateAfter.m_bytesInFirstQueue = 4294967291 ∧
      (wrappedStateAfter.m_bytesInFirstQueue : Int) ≠
        (wrappedState.m_bytesInFirstQueue : Int) - (smallPacket.size : Int) :=
  ⟨wrappedState_reachableDistinct, by decide, by decide, by decide, by decide, by decide⟩

/-- C12, amended: in a state reached with pairwise distinct resident ids, when `DoDequeue`
returns packet `p` from a class, afterwards the buffer of that class is its previous contents
without the head `p`, the byte counter of that class is the old value minus the size of `p`
modulo `2 ^ 32`, the other buffer and byte counter are unchanged, the table has no entry for the
id of `p` and all other entries are unchanged; no later `DoDequeue` returns a packet with the id
of `p` unless a packet with that id is enqueued again. -/
theorem dequeue_postcondition (c : Config) (s : State) (hr : ReachableDistinct c s)
    (p : Packet) (s2 : State) (hd : DoDequeue c s = some (some p, s2)) :
    ((∃ rest, s.m_firstWeightedQueue = p :: rest ∧ s2.m_firstWeightedQueue = rest ∧
        s2.m_bytesInFirstQueue = sub32 s.m_bytesInFirstQueue p.size ∧
        s2.m_secondWeightedQueue = s.m_secondWeightedQueue ∧
        s2.m_bytesInSecondQueue = s.m_bytesInSecondQueue) ∨
      (∃ rest, s.m_secondWeightedQueue = p :: rest ∧ s2.m_secondWeightedQueue = rest ∧
        s2.m_bytesInSecondQueue = sub32 s.m_bytesInSecondQueue p.size ∧
        s2.m_firstWeightedQueue = s.m_firstWeightedQueue ∧
        s2.m_bytesInFirstQueue = s.m_bytesInFirstQueue)) ∧
    (∀ k, mapFind s2.m_finishTimeCollection k =
      if k = p.uid then none else mapFind s.m_finishTimeCollection k) ∧
    (∀ t, RunWithout c p.uid s2 t →
      ∀ q t2, DoDequeue c t = some (some q, t2) → q.uid ≠ p.uid) := by
  obtain ⟨hnd, hpres, _, _, _, _⟩ := distinctInv_of_reachable hr
  have htbl := dequeueSecondBlock_of_present hpres
  rw [residentUids_eq] at hnd
  have hlater : (∀ x ∈ s2.m_firstWeightedQueue ++ s2.m_secondWeightedQueue, x.uid ≠ p.uid) →
      ∀ t, RunWithout c p.uid s2 t →
        ∀ q t2, DoDequeue c t = some (some q, t2) → q.uid ≠ p.uid :=
    fun h0 t hrun q t2 hq => runWithout_not_resident h0 hrun q (DoDequeue_mem hq)
  rcases DoDequeue_result hd with ⟨_, p1, rest, hq, hp, _, rfl⟩ | ⟨_, p2, rest, hq, hp, _, rfl⟩ |
    ⟨_, hp, _⟩
  · obtain rfl := Option.some.inj hp
    rw [hq, List.map_cons, List.cons_append, List.nodup_cons] at hnd
    refine ⟨Or.inl ⟨rest, hq, rfl, rfl, rfl, rfl⟩, ?_, hlater ?_⟩
    · intro k
      dsimp only
      rw [htbl, mapFind_mapErase]
    · intro x hx e
      exact hnd.1 (e ▸ (List.map_append Packet.uid _ _ ▸ List.mem_map_of_mem Packet.uid hx))
  · obtain rfl := Option.some.inj hp
    rw [hq, List.map_cons, List.nodup_middle, List.nodup_cons] at hnd
    refine ⟨Or.inr ⟨rest, hq, rfl, rfl, rfl, rfl⟩, ?_, hlater ?_⟩
    · intro k
      dsimp only
      rw [htbl, mapFind_mapErase]
    · intro x hx e
      exact hnd.1 (e ▸ (List.map_append Packet.uid _ _ ▸ List.mem_map_of_mem Packet.uid hx))
  · exact absurd hp (by simp)

/-- Witness of `dequeue_postcondition` at `mixedState`, where `DoDequeue` returns `packetA` and
leaves `mixedStateAfter`. -/
theorem dequeue_postcondition_witness :
    ReachableDistinct mixedConfig mixedState ∧
    DoDequeue mixedConfig mixedState = some (some packetA, mixedStateAfter) ∧
    (∀ k, mapFind mixedStateAfter.m_finishTimeCollection k =
      if k = packetA.uid then none else mapFind mixedState.m_finishTimeCollection k) ∧
    (∀ t, RunWithout mixedConfig packetA.uid mixedStateAfter t →
      ∀ q t2, DoDequeue mixedConfig t = some (some q, t2) → q.uid ≠ packetA.uid) :=
  ⟨mixedState_reachableDistinct, by decide,
    (dequeue_postcondition mixedConfig mixedState mixedState_reachableDistinct packetA
      mixedStateAfter (by decide)).2⟩

/-! ## Service in order of admission (C13) -/

/-- In every execution, the packets admitted to a class are the packets returned from it,
in the order of their return, followed by the packets waiting in its buffer. -/
theorem admitted_eq_returned_append {c : Config} {s : State} {h : History}
    (he : Execution c s h) :
    h.admittedFirst = h.returnedFirst ++ s.m_firstWeightedQueue ∧
    h.admittedSecond = h.returnedSecond ++ s.m_secondWeightedQueue := by
  induction he with
  | init => simp [emptyHistory, initialState]
  | @enqueue s s2 h p r _ hd ih =>
    rcases DoEnqueue_result hd with ⟨rfl, _, rfl⟩ | ⟨rfl, _, hc, _, rfl⟩ | ⟨rfl, _, hc, _, rfl⟩
    · simpa [recordEnqueue] using ih
    · simp only [recordEnqueue, hc, if_true]
      exact ⟨by rw [ih.1, List.append_assoc], ih.2⟩
    · simp only [recordEnqueue, hc, if_true, one_ne_zero, if_false]
      exact ⟨ih.1, by rw [ih.2, List.append_assoc]⟩
  | @dequeue s s2 h r _ hd ih =>
    have hsel := (dequeueSecondBlock_eq s).2.1
    rcases DoDequeue_result hd with ⟨h0, p, rest, hq, rfl, _, rfl⟩ |
      ⟨h1, p, rest, hq, rfl, _, rfl⟩ | ⟨_, rfl, rfl⟩
    · simp only [recordDequeue, hsel, h0, if_true]
      exact ⟨by rw [ih.1, hq]; simp, ih.2⟩
    · simp only [recordDequeue, hsel, h1, one_ne_zero, if_false]
      exact ⟨ih.1, by rw [ih.2, hq]; simp⟩
    · simpa [recordDequeue] using ih
  | peek _ ih => rw [DoPeek_snd]; exact ih

theorem returned_before_of_append {admitted returned waiting : List Packet}
    (h : admitted = returned ++ waiting) {i j : Nat} {A B : Packet} (hij : i < j)
    (hA : admitted[i]? = some A) (hB : admitted[j]? = some B) (hj : j < returned.length) :
    returned[i]? = some A ∧ returned[j]? = some B := by
  subst h
  rw [List.getElem?_append_left (lt_trans hij hj)] at hA
  rw [List.getElem?_append_left hj] at hB
  exact ⟨hA, hB⟩

theorem drainedExecution : Execution unitConfig drainedState drainedHistory := by
  have h1 := Execution.enqueue Execution.init
    (by decide : DoEnqueue unitConfig initialState packetA = some (true, stateA))
  have h2 := Execution.enqueue h1
    (by decide : DoEnqueue unitConfig stateA packetD = some (true, fullState))
  have h3 := Execution.dequeue h2
    (by decide : DoDequeue unitConfig fullState = some (some packetA, halfDrainedState))
  have h4 := Execution.dequeue h3
    (by decide : DoDequeue unitConfig halfDrainedState = some (some packetD, drainedState))
  have e : recordDequeue halfDrainedState (some packetD)
      (recordDequeue fullState (some packetA)
        (recordEnqueue unitConfig packetD true
          (recordEnqueue unitConfig packetA true emptyHistory))) = drainedHistory := by decide
  rw [e] at h4
  exact h4

/-- C13: in every execution (any sequence of `DoEnqueue`, `DoDequeue` and `DoPeek` calls from
the constructed scheduler), for each class the packets returned by `DoDequeue` are, in the order
of the calls, an initial segment of the packets admitted to the class in the order of
admission.  So when `A` is the `i`-th and `B` the `j`-th admission to a class, `i < j`, and `B`
has been returned, then `A` has been returned, by the `i`-th return from that class, which
precedes the `j`-th return that gave `B`. -/
theorem fifo_per_class (c : Config) (s : State) (h : History) (he : Execution c s h) :
    (h.admittedFirst = h.returnedFirst ++ s.m_firstWeightedQueue ∧
      h.admittedSecond = h.returnedSecond ++ s.m_secondWeightedQueue) ∧
    (∀ (i j : Nat) (A B : Packet), i < j →
      h.admittedFirst[i]? = some A → h.admittedFirst[j]? = some B →
      j < h.returnedFirst.length →
      h.returnedFirst[i]? = some A ∧ h.returnedFirst[j]? = some B) ∧
    (∀ (i j : Nat) (A B : Packet), i < j →
      h.admittedSecond[i]? = some A → h.admittedSecond[j]? = some B →
      j < h.returnedSecond.length →
      h.returnedSecond[i]? = some A ∧ h.returnedSecond[j]? = some B) := by
  have hinv := admitted_eq_returned_append he
  exact ⟨hinv, fun i j A B hij hA hB hj => returned_before_of_append hinv.1 hij hA hB hj,
    fun i j A B hij hA hB hj => returned_before_of_append hinv.2 hij hA hB hj⟩

/-- Witness of `fifo_per_class`: `packetA` and `packetD` are admitted to class 0 in this order
and returned by two calls of `DoDequeue` in the same order. -/
theorem fifo_per_class_witness :
    Execution unitConfig drainedState drainedHistory ∧
    drainedHistory.admittedFirst[0]? = some packetA ∧
    drainedHistory.admittedFirst[1]? = some packetD ∧
    1 < drainedHistory.returnedFirst.length ∧
    drainedHistory.returnedFirst[0]? = some packetA ∧
    drainedHistory.returnedFirst[1]? = some packetD :=
  ⟨drainedExecution, by decide, by decide, by decide,
    (fifo_per_class unitConfig drainedState drainedHistory drainedExecution).2.1 0 1 packetA
      packetD (by decide) (by decide) (by decide) (by decide)⟩

/-! ## The virtual time (C14) -/

theorem DoEnqueue_virtualTime {c : Config} {s s2 : State} {p : Packet} {r : Bool}
    (h : DoEnqueue c s p = some (r, s2)) : s2.m_virtualTime = s.m_virtualTime := by
  rcases DoEnqueue_result h with ⟨_, _, rfl⟩ | ⟨_, _, _, _, rfl⟩ | ⟨_, _, _, _, rfl⟩ <;> rfl

theorem DoDequeue_virtualTime {c : Config} {s s2 : State} {r : Option Packet}
    (hv : IsDouble s.m_virtualTime) (h : DoDequeue c s = some (r, s2)) :
    s.m_virtualTime ≤ s2.m_virtualTime ∧ IsDouble s2.m_virtualTime := by
  rcases DoDequeue_result h with ⟨_, p, rest, _, _, _, rfl⟩ | ⟨_, p, rest, _, _, _, rfl⟩ |
    ⟨_, _, rfl⟩
  · exact ⟨le_dadd hv _, isDouble_dadd _ _⟩
  · exact ⟨le_dadd hv _, isDouble_dadd _ _⟩
  · exact ⟨le_refl _, hv⟩

theorem step_virtualTime {c : Config} {s t : State} (hv : IsDouble s.m_virtualTime)
    (h : Step c s t) : s.m_virtualTime ≤ t.m_virtualTime ∧ IsDouble t.m_virtualTime := by
  cases h with
  | enqueue _ hd => rw [DoEnqueue_virtualTime hd]; exact ⟨le_refl _, hv⟩
  | dequeue hd => exact DoDequeue_virtualTime hv hd
  | peek => rw [DoPeek_snd]; exact ⟨le_refl _, hv⟩

theorem steps_virtualTime {c : Config} {s t : State} (hv : IsDouble s.m_virtualTime)
    (h : Relation.ReflTransGen (Step c) s t) :
    s.m_virtualTime ≤ t.m_virtualTime ∧ IsDouble t.m_virtualTime := by
  induction h with
  | refl => exact ⟨le_refl _, hv⟩
  | tail _ hstep ih =>
    have h2 := step_virtualTime ih.2 hstep
    exact ⟨le_trans ih.1 h2.1, h2.2⟩

/-- In every reachable state the virtual time is a double. -/
theorem reachable_isDouble_virtualTime {c : Config} {s : State} (hr : Reachable c s) :
    IsDouble s.m_virtualTime := by
  unfold Reachable at hr
  induction hr with
  | init => exact isDouble_zero
  | enqueue _ _ _ hd ih => rw [DoEnqueue_virtualTime hd]; exact ih
  | dequeue _ hd ih => exact (DoDequeue_virtualTime ih hd).2
  | peek _ ih => rw [DoPeek_snd]; exact ih

/-- `DoDequeue` returns whenever no packet is selected or its divisor is non-zero. -/
theorem DoDequeue_returns {c : Config} {s : State}
    (h : (DoPeek c s).1 = none ∨ CalculateWeightSum c s ≠ 0) :
    ∃ r s2, DoDequeue c s = some (r, s2) := by
  rcases DoDequeue_cases c s with ⟨_, p, rest, _, hp, hd⟩ | ⟨_, p, rest, _, hp, hd⟩ | ⟨_, hp, hd⟩
  · have hw : CalculateWeightSum c s ≠ 0 := by
      rcases h with h | h
      · rw [hp] at h; exact absurd h (by simp)
      · exact h
    rw [hd, if_neg hw]; exact ⟨_, _, rfl⟩
  · have hw : CalculateWeightSum c s ≠ 0 := by
      rcases h with h | h
      · rw [hp] at h; exact absurd h (by simp)
      · exact h
    rw [hd, if_neg hw]; exact ⟨_, _, rfl⟩
  · rw [hd]; exact ⟨_, _, rfl⟩

/-- C14: `DoEnqueue`, admitting or rejecting, and `DoPeek` leave the virtual time unchanged; a
call of `DoDequeue` that returns leaves it greater than or equal to its previous value (for a
virtual time that is a double, as it is in every reachable state), and it returns whenever no
packet is selected or its divisor is non-zero; hence from every reachable state on, the virtual
time never decreases along any further calls. -/
theorem virtual_time_monotone (c : Config) (s : State) :
    (∀ p r s2, DoEnqueue c s p = some (r, s2) → s2.m_virtualTime = s.m_virtualTime) ∧
    (DoPeek c s).2.m_virtualTime = s.m_virtualTime ∧
    (IsDouble s.m_virtualTime →
      ∀ r s2, DoDequeue c s = some (r, s2) → s.m_virtualTime ≤ s2.m_virtualTime) ∧
    (IsDouble s.m_virtualTime → ((DoPeek c s).1 = none ∨ CalculateWeightSum c s ≠ 0) →
      ∃ r s2, DoDequeue c s = some (r, s2) ∧ s.m_virtualTime ≤ s2.m_virtualTime) ∧
    (Reachable c s →
      ∀ t, Relation.ReflTransGen (Step c) s t → s.m_virtualTime ≤ t.m_virtualTime) := by
  refine ⟨fun p r s2 h => DoEnqueue_virtualTime h, by rw [DoPeek_snd],
    fun hv r s2 h => (DoDequeue_virtualTime hv h).1, ?_,
    fun hr t h => (steps_virtualTime (reachable_isDouble_virtualTime hr) h).1⟩
  intro hv hdiv
  obtain ⟨r, s2, h2⟩ := DoDequeue_returns hdiv
  exact ⟨r, s2, h2, (DoDequeue_virtualTime hv h2).1⟩

theorem mixedState_reachable : Reachable mixedConfig mixedState := by
  have h1 : ReachableWith mixedConfig (fun _ _ => True) stateA :=
    ReachableWith.enqueue ReachableWith.init (by decide : packetA.size < U32) trivial
      (by decide : DoEnqueue mixedConfig initialState packetA = some (true, stateA))
  exact ReachableWith.enqueue h1 (by decide : packetC.size < U32) trivial
    (by decide : DoEnqueue mixedConfig stateA packetC = some (true, mixedState))

/-- Witness of `virtual_time_monotone` at `mixedState`, where `DoDequeue` moves the virtual time
from 0 to 33. -/
theorem virtual_time_monotone_witness :
    IsDouble mixedState.m_virtualTime ∧ Reachable mixedConfig mixedState ∧
    DoDequeue mixedConfig mixedState = some (some packetA, mixedStateAfter) ∧
    Relation.ReflTransGen (Step mixedConfig) mixedState mixedStateAfter ∧
    mixedState.m_virtualTime ≤ mixedStateAfter.m_virtualTime :=
  ⟨isDouble_zero, mixedState_reachable, by decide,
    Relation.ReflTransGen.single
      (Step.dequeue (by decide :
        DoDequeue mixedConfig mixedState = some (some packetA, mixedStateAfter))),
    (virtual_time_monotone mixedConfig mixedState).2.2.2.2 mixedState_reachable mixedStateAfter
      (Relation.ReflTransGen.single
        (Step.dequeue (by decide :
          DoDequeue mixedConfig mixedState = some (some packetA, mixedStateAfter))))⟩

/-! ## The byte counters (C15) -/

theorem add32_mod (x y : Nat) : add32 (x % U32) y = (x + y) % U32 := by
  unfold add32
  exact Nat.mod_add_mod x U32 y

theorem sub32_mod (b r : Nat) : sub32 ((b + r) % U32) b = r % U32 := by
  unfold sub32 U32
  omega

theorem zeroBytesState_reachable : Reachable unitConfig zeroBytesState := by
  have h1 : ReachableWith unitConfig (fun _ _ => True) halfBytesState :=
    ReachableWith.enqueue ReachableWith.init (by decide : halfPacketA.size < U32) trivial
      (by decide : DoEnqueue unitConfig initialState halfPacketA = some (true, halfBytesState))
  exact ReachableWith.enqueue h1 (by decide : halfPacketB.size < U32) trivial
    (by decide : DoEnqueue unitConfig halfBytesState halfPacketB = some (true, zeroBytesState))

/-- C15, counterexample: (1) in packet-count mode, after two packets of `2 ^ 31` bytes were
admitted to the first queue its byte counter is 0, while the sizes of the packets it holds sum
to `2 ^ 32`; (2) in byte-count mode, `wrappedState` has a byte counter of 5 while its first
queue holds `10 + (2 ^ 32 - 5)` bytes. -/
theorem byte_count_sum_counterexample :
    (unitConfig.m_mode = QueueMode.QUEUE_MODE_PACKETS ∧
      Reachable unitConfig zeroBytesState ∧
      zeroBytesState.m_bytesInFirstQueue = 0 ∧
      (zeroBytesState.m_firstWeightedQueue.map Packet.size).sum = 4294967296 ∧
      zeroBytesState.m_bytesInFirstQueue ≠
        (zeroBytesState.m_firstWeightedQueue.map Packet.size).sum) ∧
    (byteConfig.m_mode = QueueMode.QUEUE_MODE_BYTES ∧
      Reachable byteConfig wrappedState ∧
      wrappedState.m_bytesInFirstQueue = 5 ∧
      (wrappedState.m_firstWeightedQueue.map Packet.size).sum = 4294967301 ∧
      wrappedState.m_bytesInFirstQueue ≠
        (wrappedState.m_firstWeightedQueue.map Packet.size).sum) :=
  ⟨⟨by decide, zeroBytesState_reachable, by decide, by decide, by decide⟩,
    ⟨by decide, reachableWith_mono (fun _ _ _ => trivial) wrappedState_reachableDistinct,
      by decide, by decide, by decide⟩⟩

/-- C15, amended: in every state reached from the constructed scheduler by calls of
`DoEnqueue`, `DoDequeue` and `DoPeek`, in either mode, the byte counter of each class equals
the sum of the sizes of the packets held in the buffer of the class modulo `2 ^ 32`; it equals
the sum itself whenever the sum is below `2 ^ 32`. -/
theorem byte_count_invariant (c : Config) (s : State) (hr : Reachable c s) :
    (s.m_bytesInFirstQueue = (s.m_firstWeightedQueue.map Packet.size).sum % 2 ^ 32 ∧
      s.m_bytesInSecondQueue = (s.m_secondWeightedQueue.map Packet.size).sum % 2 ^ 32) ∧
    ((s.m_firstWeightedQueue.map Packet.size).sum < 2 ^ 32 →
      s.m_bytesInFirstQueue = (s.m_firstWeightedQueue.map Packet.size).sum) ∧
    ((s.m_secondWeightedQueue.map Packet.size).sum < 2 ^ 32 →
      s.m_bytesInSecondQueue = (s.m_secondWeightedQueue.map Packet.size).sum) := by
  have hmain : s.m_bytesInFirstQueue = (s.m_firstWeightedQueue.map Packet.size).sum % U32 ∧
      s.m_bytesInSecondQueue = (s.m_secondWeightedQueue.map Packet.size).sum % U32 := by
    unfold Reachable at hr
    induction hr with
    | init => simp [initialState]
    | @enqueue s s2 p r _ _ _ hd ih =>
      rcases DoEnqueue_result hd with ⟨_, _, rfl⟩ | ⟨_, _, _, _, rfl⟩ | ⟨_, _, _, _, rfl⟩
      · exact ih
      · refine ⟨?_, ih.2⟩
        dsimp only
        rw [ih.1, add32_mod, List.map_append, List.sum_append]
        simp
      · refine ⟨ih.1, ?_⟩
        dsimp only
        rw [ih.2, add32_mod, List.map_append, List.sum_append]
        simp
    | @dequeue s s2 r _ hd ih =>
      rcases DoDequeue_result hd with ⟨_, p, rest, hq, _, _, rfl⟩ | ⟨_, p, rest, hq, _, _, rfl⟩ |
        ⟨_, _, rfl⟩
      · refine ⟨?_, ih.2⟩
        dsimp only
        rw [ih.1, hq, List.map_cons, List.sum_cons, sub32_mod]
      · refine ⟨ih.1, ?_⟩
        dsimp only
        rw [ih.2, hq, List.map_cons, List.sum_cons, sub32_mod]
      · exact ih
    | peek _ ih => rw [DoPeek_snd]; exact ih
  unfold U32 at hmain
  refine ⟨hmain, fun h => ?_, fun h => ?_⟩
  · rw [hmain.1, Nat.mod_eq_of_lt h]
  · rw [hmain.2, Nat.mod_eq_of_lt h]

/-- Witness of `byte_count_invariant` at `tieState`: each byte counter is 100, the size of the
one packet in each buffer. -/
theorem byte_count_invariant_witness :
    Reachable unitConfig tieState ∧
    (tieState.m_firstWeightedQueue.map Packet.size).sum < 2 ^ 32 ∧
    tieState.m_bytesInFirstQueue = (tieState.m_firstWeightedQueue.map Packet.size).sum :=
  ⟨tieState_reachable, by decide,
    (byte_count_invariant unitConfig tieState tieState_reachable).2.1 (by decide)⟩

/-! ## Classification (C16) -/

/-- C16: `Classify` returns 1 exactly when the protocol is UDP (17) or TCP (6) and the
destination port equals `m_secondQueuePort`, and 0 in every other case; the result is 0 or 1
and is the same for any two packets and configurations that agree on the protocol, the
destination port and `m_secondQueuePort`. -/
theorem classify_rule (c : Config) (p : Packet) :
    (Classify c p = 1 ↔
      (p.protocol = 17 ∨ p.protocol = 6) ∧ p.destinationPort = c.m_secondQueuePort) ∧
    (¬ ((p.protocol = 17 ∨ p.protocol = 6) ∧ p.destinationPort = c.m_secondQueuePort) →
      Classify c p = 0) ∧
    (Classify c p = 0 ∨ Classify c p = 1) ∧
    (∀ (c2 : Config) (p2 : Packet), p2.protocol = p.protocol →
      p2.destinationPort = p.destinationPort → c2.m_secondQueuePort = c.m_secondQueuePort →
      Classify c2 p2 = Classify c p) := by
  refine ⟨?_, ?_, Classify_le_one c p, ?_⟩
  · unfold Classify
    split_ifs with h1 h2 h3 h4 <;> simp_all
  · unfold Classify
    split_ifs with h1 h2 h3 h4 <;> simp_all
  · intro c2 p2 e1 e2 e3
    unfold Classify
    rw [e1, e2, e3]

/-- Witness of `classify_rule`: a UDP packet to port 3000 is of class 1 when the port of the
second queue is 3000, a UDP packet to port 80 is of class 0. -/
theorem classify_rule_witness :
    ((packetB.protocol = 17 ∨ packetB.protocol = 6) ∧
      packetB.destinationPort = unitConfig.m_secondQueuePort) ∧
    Classify unitConfig packetB = 1 ∧
    ¬ ((packetA.protocol = 17 ∨ packetA.protocol = 6) ∧
      packetA.destinationPort = unitConfig.m_secondQueuePort) ∧
    Classify unitConfig packetA = 0 :=
  ⟨by decide, (classify_rule unitConfig packetB).1.2 (by decide), by decide,
    (classify_rule unitConfig packetA).2.1 (by decide)⟩

/-! ## The divisor of the virtual-time advance (C17) -/

/-- C17, counterexample: (1) with both weights `2 ^ 31`, in `halfState` the selection picks
class 1 and `CalculateWeightSum` returns 0, below the weight of class 1: the advance divides by
zero; (2) with weights `2 ^ 32 - 1` and 2, in `overflowState` the selection picks class 0 and
`CalculateWeightSum` returns 1, below the weight `2 ^ 32 - 1` of class 0. -/
theorem weight_sum_counterexample :
    (0 < halfConfig.m_firstWeight ∧ halfConfig.m_firstWeight < 2 ^ 32 ∧
      0 < halfConfig.m_secondWeight ∧ halfConfig.m_secondWeight < 2 ^ 32 ∧
      (dequeueSecondBlock halfState).2.1 = 1 ∧
      CalculateWeightSum halfConfig halfState = 0 ∧
      ¬ halfConfig.m_secondWeight ≤ CalculateWeightSum halfConfig halfState ∧
      DoDequeue halfConfig halfState = none) ∧
    (0 < overflowConfig.m_firstWeight ∧ overflowConfig.m_firstWeight < 2 ^ 32 ∧
      0 < overflowConfig.m_secondWeight ∧ overflowConfig.m_secondWeight < 2 ^ 32 ∧
      (dequeueSecondBlock overflowState).2.1 = 0 ∧
      CalculateWeightSum overflowConfig overflowState = 1 ∧
      ¬ overflowConfig.m_firstWeight ≤ CalculateWeightSum overflowConfig overflowState) := by
  decide

/-- C17, amended: for every state and every configuration whose weights are positive and sum to
less than `2 ^ 32`, when `DoDequeue` has selected class 0 (`minQueue = 0`) the value of
`CalculateWeightSum` is at least `m_firstWeight`, when it has selected class 1 it is at least
`m_secondWeight`, in both cases it is positive, and `DoDequeue` returns: the division is never
by zero. -/
theorem weight_sum_ge_winner (c : Config) (s : State)
    (h1 : 0 < c.m_firstWeight) (h2 : 0 < c.m_secondWeight)
    (hsum : c.m_firstWeight + c.m_secondWeight < 2 ^ 32) :
    ((dequeueSecondBlock s).2.1 = 0 →
      c.m_firstWeight ≤ CalculateWeightSum c s ∧ 0 < CalculateWeightSum c s) ∧
    ((dequeueSecondBlock s).2.1 = 1 →
      c.m_secondWeight ≤ CalculateWeightSum c s ∧ 0 < CalculateWeightSum c s) ∧
    (∃ r s2, DoDequeue c s = some (r, s2)) := by
  have hsel := (dequeueSecondBlock_eq s).2.1
  have hfirst : s.m_firstWeightedQueue ≠ [] →
      c.m_firstWeight ≤ CalculateWeightSum c s ∧ 0 < CalculateWeightSum c s := by
    intro hne
    unfold CalculateWeightSum add32 U32
    simp only [hne, ne_eq, not_false_eq_true, if_true]
    split_ifs <;> omega
  have hsecond : s.m_secondWeightedQueue ≠ [] →
      c.m_secondWeight ≤ CalculateWeightSum c s ∧ 0 < CalculateWeightSum c s := by
    intro hne
    unfold CalculateWeightSum add32 U32
    simp only [hne, ne_eq, not_false_eq_true, if_true]
    split_ifs <;> omega
  have h0 : (dequeueSecondBlock s).2.1 = 0 →
      c.m_firstWeight ≤ CalculateWeightSum c s ∧ 0 < CalculateWeightSum c s := by
    intro h
    obtain ⟨p, rest, hq⟩ := peekSecondBlock_zero (hsel ▸ h)
    exact hfirst (by rw [hq]; simp)
  have hone : (dequeueSecondBlock s).2.1 = 1 →
      c.m_secondWeight ≤ CalculateWeightSum c s ∧ 0 < CalculateWeightSum c s := by
    intro h
    obtain ⟨p, rest, hq⟩ := peekSecondBlock_one (hsel ▸ h)
    exact hsecond (by rw [hq]; simp)
  refine ⟨h0, hone, ?_⟩
  apply DoDequeue_returns
  rcases DoDequeue_cases c s with ⟨hs, _⟩ | ⟨hs, _⟩ | ⟨_, hp, _⟩
  · exact Or.inr (by have := (h0 (hsel.trans hs)).2; omega)
  · exact Or.inr (by have := (hone (hsel.trans hs)).2; omega)
  · exact Or.inl hp

/-- Witness of `weight_sum_ge_winner` at `mixedState` (weights 1 and 2, class 0 selected, weight
sum 3). -/
theorem weight_sum_ge_winner_witness :
    0 < mixedConfig.m_firstWeight ∧ 0 < mixedConfig.m_secondWeight ∧
    mixedConfig.m_firstWeight + mixedConfig.m_secondWeight < 2 ^ 32 ∧
    (dequeueSecondBlock mixedState).2.1 = 0 ∧
    mixedConfig.m_firstWeight ≤ CalculateWeightSum mixedConfig mixedState ∧
    0 < CalculateWeightSum mixedConfig mixedState :=
  ⟨by decide, by decide, by decide, by decide,
    (weight_sum_ge_winner mixedConfig mixedState (by decide) (by decide) (by decide)).1
      (by decide)⟩

/-! ## Finish times within a class (C18) -/

theorem fullState_reachableDistinct : ReachableDistinct unitConfig fullState := by
  have h1 : ReachableWith unitConfig (fun s p => p.uid ∉ residentUids s) stateA :=
    ReachableWith.enqueue ReachableWith.init (by decide : packetA.size < U32)
      (by decide : packetA.uid ∉ residentUids initialState)
      (by decide : DoEnqueue unitConfig initialState packetA = some (true, stateA))
  exact ReachableWith.enqueue h1 (by decide : packetD.size < U32)
    (by decide : packetD.uid ∉ residentUids stateA)
    (by decide : DoEnqueue unitConfig stateA packetD = some (true, fullState))

theorem finishTimeSorted_stored {s : State} {q : List Packet}
    (h : FinishTimeSorted s.m_finishTimeCollection q) :
    q.Pairwise (fun a b => storedFinishTime s a.uid ≤ storedFinishTime s b.uid) := by
  unfold FinishTimeSorted at h
  refine h.imp ?_
  intro a b hab
  rw [storedFinishTime_eq, storedFinishTime_eq]; exact hab

/-- C18: in every state reached from the constructed scheduler with pairwise distinct resident
ids, the stored finish times of the packets of each buffer are non-decreasing from head to
tail; and a packet with a fresh id admitted to a buffer gets a stored finish time greater than
or equal to that of every packet already in the buffer, in particular of the one admitted
immediately before it. -/
theorem finish_time_monotone_in_class (c : Config) (s : State) (hr : ReachableDistinct c s) :
    s.m_firstWeightedQueue.Pairwise
      (fun a b => storedFinishTime s a.uid ≤ storedFinishTime s b.uid) ∧
    s.m_secondWeightedQueue.Pairwise
      (fun a b => storedFinishTime s a.uid ≤ storedFinishTime s b.uid) ∧
    (∀ p s2, p.size < U32 → p.uid ∉ residentUids s → DoEnqueue c s p = some (true, s2) →
      ∀ q ∈ classQueue s (Classify c p),
        storedFinishTime s2 q.uid ≤ storedFinishTime s2 p.uid) := by
  obtain ⟨_, _, _, _, hs1, hs2⟩ := distinctInv_of_reachable hr
  refine ⟨finishTimeSorted_stored hs1, finishTimeSorted_stored hs2, ?_⟩
  intro p s2 hsz hfresh hd q hq
  have hr2 : ReachableDistinct c s2 := ReachableWith.enqueue hr hsz hfresh hd
  obtain ⟨_, _, _, _, ht1, ht2⟩ := distinctInv_of_reachable hr2
  have hp1 := finishTimeSorted_stored ht1
  have hp2 := finishTimeSorted_stored ht2
  rcases DoEnqueue_result hd with ⟨hf, _, _⟩ | ⟨_, _, hc, _, rfl⟩ | ⟨_, _, hc, _, rfl⟩
  · exact absurd hf (by simp)
  · rw [hc] at hq
    simp only [classQueue, if_true] at hq
    exact (List.pairwise_append.1 hp1).2.2 q hq p (List.mem_singleton.2 rfl)
  · rw [hc] at hq
    simp only [classQueue, one_ne_zero, if_false] at hq
    exact (List.pairwise_append.1 hp2).2.2 q hq p (List.mem_singleton.2 rfl)

/-- Witness of `finish_time_monotone_in_class`: `packetD`, admitted behind `packetA`, has the
finish time 200, that of `packetA` being 100. -/
theorem finish_time_monotone_in_class_witness :
    ReachableDistinct unitConfig fullState ∧
    fullState.m_firstWeightedQueue.Pairwise
      (fun a b => storedFinishTime fullState a.uid ≤ storedFinishTime fullState b.uid) ∧
    storedFinishTime fullState packetA.uid = 100 ∧
    storedFinishTime fullState packetD.uid = 200 :=
  ⟨fullState_reachableDistinct,
    (finish_time_monotone_in_class unitConfig fullState fullState_reachableDistinct).1,
    by decide, by decide⟩

/-! ## Weights and quotients (C19, C20) -/

/-- C19: for every previous finish time, packet size and weights `0 < w1 ≤ w2`,
`CalculateFinishTime` returns for both weights, and the result for the higher weight `w2` is
less than or equal to the result for `w1`. -/
theorem weight_monotone (prev size w1 w2 : Nat) (h1 : 0 < w1) (h2 : w1 ≤ w2) :
    ∃ f1 f2, CalculateFinishTime prev size w1 = some f1 ∧
      CalculateFinishTime prev size w2 = some f2 ∧ f2 ≤ f1 := by
  have hw1 : w1 ≠ 0 := by omega
  have hw2 : w2 ≠ 0 := by omega
  refine ⟨dadd prev (size / w1), dadd prev (size / w2), ?_, ?_, ?_⟩
  · simp [CalculateFinishTime, hw1]
  · simp [CalculateFinishTime, hw2]
  · exact dadd_mono_right prev (Nat.div_le_div_left h2 h1)

/-- Witness of `weight_monotone`: 100 bytes at weight 3 advance the finish time by 33, at weight
1 by 100. -/
theorem weight_monotone_witness :
    (0 < 1 ∧ 1 ≤ 3) ∧ CalculateFinishTime 0 100 1 = some 100 ∧
    CalculateFinishTime 0 100 3 = some 33 ∧
    ∃ f1 f2, CalculateFinishTime 0 100 1 = some f1 ∧
      CalculateFinishTime 0 100 3 = some f2 ∧ f2 ≤ f1 :=
  ⟨by decide, by decide, by decide, weight_monotone 0 100 1 3 (by decide) (by decide)⟩

/-- In every reachable state the stored finish times are doubles. -/
theorem reachable_isDouble_table {c : Config} {s : State} (hr : Reachable c s) :
    TableAll IsDouble s.m_finishTimeCollection := by
  have hv := fun {t : State} (h : ReachableWith c (fun _ _ => True) t) =>
    reachable_isDouble_virtualTime (c := c) h
  unfold Reachable at hr
  induction hr with
  | init =>
    intro k v h
    simp [initialState, mapFind] at h
  | @enqueue s s2 p r hs _ _ hd ih =>
    rcases DoEnqueue_result hd with ⟨_, _, rfl⟩ | ⟨_, _, _, _, rfl⟩ | ⟨_, _, _, _, rfl⟩
    · exact ih
    · exact tableAll_mapInsert
        (tableAll_previousFinishTime ih isDouble_zero (hv hs) s.m_firstWeightedQueue).2
        (isDouble_dadd _ _) _
    · exact tableAll_mapInsert
        (tableAll_previousFinishTime ih isDouble_zero (hv hs) s.m_secondWeightedQueue).2
        (isDouble_dadd _ _) _
  | @dequeue s s2 r _ hd ih =>
    have hblk := tableAll_dequeueSecondBlock ih isDouble_zero
    rcases DoDequeue_result hd with ⟨_, p, rest, _, _, _, rfl⟩ | ⟨_, p, rest, _, _, _, rfl⟩ |
      ⟨_, _, rfl⟩
    · exact tableAll_mapErase hblk _
    · exact tableAll_mapErase hblk _
    · exact hblk
  | peek _ ih => rw [DoPeek_snd]; exact ih

/-! ## Rounding: scaling by powers of two and nearness -/

theorem wide_one_eq : Wide.one = 2 ^ 1074 := by
  norm_num [Wide.one]

theorem wide_one_pos : 0 < Wide.one := by
  rw [wide_one_eq]; positivity

theorem wide_ofNat_nonneg (n : Nat) : 0 ≤ Wide.ofNat n :=
  Int.mul_nonneg (Int.ofNat_nonneg n) wide_one_pos.le

theorem wide_maxFinite_eq : Wide.maxFinite = (2 ^ 53 - 1) * 2 ^ 2045 := by
  norm_num [Wide.maxFinite]

/-- C5, counterexample: with both weights `2 ^ 31` (positive 32-bit values), enqueuing `packetA`
and `packetB` reaches `halfState`; there `DoPeek` returns `packetB`, but `DoDequeue` returns
nothing, the 32-bit weight sum it divides by being 0: no result of `DoDequeue` equals the
packet `DoPeek` returns. -/
theorem peek_dequeue_counterexample :
    Reachable halfConfig halfState ∧
      0 < halfConfig.m_firstWeight ∧ halfConfig.m_firstWeight < 2 ^ 32 ∧
      0 < halfConfig.m_secondWeight ∧ halfConfig.m_secondWeight < 2 ^ 32 ∧
      (DoPeek halfConfig halfState).1 = some packetB ∧
      CalculateWeightSum halfConfig halfState = 0 ∧
      DoDequeue halfConfig halfState = none ∧
      (DoDequeue halfConfig halfState).map Prod.fst ≠ some (DoPeek halfConfig halfState).1 :=
  ⟨halfState_reachable, by decide, by decide, by decide, by decide, by decide, by decide,
    by decide, by decide⟩

end WeightedFairQueue
